import Mathlib

/-!
Verification of the BM3D-style denoiser in `src-tauri/src/denoising.rs`.

The numeric code works on `f32`; the shallow embedding below models the
arithmetic over `ℝ`, keeping every literal constant (such as the DCT scale
`0.35355339` and the fixed-point scale `100000`) exactly as written in the
source.  Buffers (`&[f32]` slices) are modelled as functions `ℕ → ℝ`
together with the length that the surrounding code passes along; the i64
atomic accumulator cells are modelled as `ℤ`.
-/

set_option maxHeartbeats 1000000

noncomputable section

namespace Denoising

open Finset

/-- Fixed-point scale used by `AtomicAccumulator` (`FIXED_POINT_SCALE`). -/
def FIXED_POINT_SCALE : ℝ := 100000

/-- Parameter record of `Bm3dParams`. -/
structure Bm3dParams where
  sigma : ℝ
  hard_th_lambda : ℝ
  max_dist_hard : ℝ

/-- Clamp on reals, mirroring `f32::clamp`. -/
def rclamp (x lo hi : ℝ) : ℝ := min (max x lo) hi

/-- `Bm3dParams::from_intensity`. -/
def Bm3dParams.from_intensity (i : ℝ) : Bm3dParams :=
  let val := rclamp i 0.001 1.0
  { sigma := val * 80.0
    hard_th_lambda := 2.0 + val * 2.5
    max_dist_hard := 3000.0 + val * 20000.0 }

/-- The 8×8 forward DCT-II coefficient table built by `DctTables::new`:
`dct_coeff[k*8+n] = cos((n+0.5)*(k*PI/8)) * (if k == 0 then 0.35355339 else 0.5)`. -/
def dct_coeff (i : ℕ) : ℝ :=
  Real.cos (((i % 8 : ℕ) + (0.5 : ℝ)) * ((i / 8 : ℕ) * Real.pi / 8)) *
    (if i / 8 = 0 then 0.35355339 else 0.5)

/-- The 8×8 inverse DCT coefficient table built by `DctTables::new`:
`idct_coeff[n*8+k] = (if k == 0 then 0.35355339 else 0.5) * cos((PI/8)*(n+0.5)*k)`. -/
def idct_coeff (i : ℕ) : ℝ :=
  (if i % 8 = 0 then (0.35355339 : ℝ) else 0.5) *
    Real.cos (Real.pi / 8 * ((i / 8 : ℕ) + (0.5 : ℝ)) * (i % 8 : ℕ))

/-- The 8×8 separable sine window built by `DctTables::new`
(`kaiser[y*8+x] = sin(PI*x/7) * sin(PI*y/7)`). -/
def kaiser (i : ℕ) : ℝ :=
  Real.sin (Real.pi * (i % 8 : ℕ) / 7) * Real.sin (Real.pi * (i / 8 : ℕ) / 7)

/-- `dct_1d_8`: one 8-point DCT pass, `x[k] = Σ_n tmp[n] * coeffs[k*8+n]`. -/
def dct_1d_8 (coeffs : ℕ → ℝ) (x : ℕ → ℝ) : ℕ → ℝ :=
  fun k => ∑ n ∈ Finset.range 8, x n * coeffs (k * 8 + n)

/-- `idct_1d_8`: one 8-point inverse pass, `x[n] = Σ_k tmp[k] * coeffs[n*8+k]`. -/
def idct_1d_8 (coeffs : ℕ → ℝ) (x : ℕ → ℝ) : ℕ → ℝ :=
  fun n => ∑ k ∈ Finset.range 8, x k * coeffs (n * 8 + k)

/-- `transpose_8x8` on a flat 8×8 block. -/
def transpose_8x8 (b : ℕ → ℝ) : ℕ → ℝ := fun i => b (i % 8 * 8 + i / 8)

/-- Apply a 1D transform to each contiguous row of a flat 8×8 block
(the `for i in 0..8 { f(&mut block[i*8..(i+1)*8]) }` loops). -/
def applyRows (f : (ℕ → ℝ) → ℕ → ℝ) (b : ℕ → ℝ) : ℕ → ℝ :=
  fun i => f (fun n => b (i / 8 * 8 + n)) (i % 8)

/-- `dct_2d_8x8`: rows, transpose, rows, transpose. -/
def dct_2d_8x8 (b : ℕ → ℝ) : ℕ → ℝ :=
  transpose_8x8 (applyRows (dct_1d_8 dct_coeff)
    (transpose_8x8 (applyRows (dct_1d_8 dct_coeff) b)))

/-- `idct_2d_8x8`: transpose, rows, transpose, rows. -/
def idct_2d_8x8 (b : ℕ → ℝ) : ℕ → ℝ :=
  applyRows (idct_1d_8 idct_coeff)
    (transpose_8x8 (applyRows (idct_1d_8 idct_coeff) (transpose_8x8 b)))

/-- One butterfly pass of `walsh_hadamard_1d` at step `h`:
within each block of `2h`, `d[j] := x + y` and `d[j+h] := x - y`. -/
def whtPass (h : ℕ) (d : ℕ → ℝ) : ℕ → ℝ :=
  fun j => if j % (h * 2) < h then d j + d (j + h) else d (j - h) - d j

/-- The `while h < n` loop of `walsh_hadamard_1d`, doubling `h` each pass. -/
def whtSteps (n h : ℕ) (d : ℕ → ℝ) : ℕ → ℝ :=
  if hlt : 0 < h ∧ h < n then whtSteps n (h * 2) (whtPass h d) else d
termination_by n - h
decreasing_by omega

/-- `walsh_hadamard_1d` on a slice of length `n`: butterfly passes followed by
the `1/sqrt(n)` normalisation. -/
def walsh_hadamard_1d (n : ℕ) (d : ℕ → ℝ) : ℕ → ℝ :=
  fun j => whtSteps n 1 d j * (1 / Real.sqrt n)

/-- Apply an 8×8 block transform to every 64-element patch of a flat stack
(the per-patch loops of `transform_3d` / `inverse_transform_3d`). -/
def patchApply (f : (ℕ → ℝ) → ℕ → ℝ) (s : ℕ → ℝ) : ℕ → ℝ :=
  fun idx => f (fun j => s (idx / 64 * 64 + j)) (idx % 64)

/-- Apply a length-`group_size` transform along the group dimension at each of
the 64 in-patch positions (the column loops of `transform_3d`). -/
def colsApply (g : (ℕ → ℝ) → ℕ → ℝ) (s : ℕ → ℝ) : ℕ → ℝ :=
  fun idx => g (fun k => s (k * 64 + idx % 64)) (idx / 64)

/-- `transform_3d`: per-patch 2D DCT, then Walsh–Hadamard across the group. -/
def transform_3d (group_size : ℕ) (s : ℕ → ℝ) : ℕ → ℝ :=
  colsApply (walsh_hadamard_1d group_size) (patchApply dct_2d_8x8 s)

/-- `inverse_transform_3d`: Walsh–Hadamard across the group, then per-patch
inverse 2D DCT. -/
def inverse_transform_3d (group_size : ℕ) (s : ℕ → ℝ) : ℕ → ℝ :=
  patchApply idct_2d_8x8 (colsApply (walsh_hadamard_1d group_size) s)

/-- The defect of the stored DC scale: `0.35355339` is the `f32` rounding of
`1/(2*sqrt 2)`, so `0.35355339^2` misses `1/8` by this tiny amount. -/
def dcEps : ℝ := 1 / 8 - 0.35355339 ^ 2

theorem dcEps_nonneg : 0 ≤ dcEps := by norm_num [dcEps]

theorem dcEps_le : dcEps ≤ 5e-10 := by norm_num [dcEps]

/-- Telescoping Dirichlet-kernel identity used to evaluate the DCT cosine sums. -/
theorem sum_cos_two_mul_eq (ψ : ℝ) :
    (∑ k ∈ Finset.range 8, Real.cos (2 * (k : ℝ) * ψ)) * (2 * Real.sin ψ)
      = Real.sin (15 * ψ) + Real.sin ψ := by
  have key : ∀ k : ℕ,
      Real.sin ((2 * ((k : ℝ) + 1) - 1) * ψ) - Real.sin ((2 * (k : ℝ) - 1) * ψ)
        = Real.cos (2 * (k : ℝ) * ψ) * (2 * Real.sin ψ) := by
    intro k
    have h1 : ((2 * ((k : ℝ) + 1) - 1) * ψ - (2 * (k : ℝ) - 1) * ψ) / 2 = ψ := by ring
    have h2 : ((2 * ((k : ℝ) + 1) - 1) * ψ + (2 * (k : ℝ) - 1) * ψ) / 2
        = 2 * (k : ℝ) * ψ := by ring
    rw [Real.sin_sub_sin, h1, h2]; ring
  calc (∑ k ∈ Finset.range 8, Real.cos (2 * (k : ℝ) * ψ)) * (2 * Real.sin ψ)
      = ∑ k ∈ Finset.range 8,
          (Real.sin ((2 * ((k : ℝ) + 1) - 1) * ψ) - Real.sin ((2 * (k : ℝ) - 1) * ψ)) := by
        rw [Finset.sum_mul]
        exact Finset.sum_congr rfl fun k _ => (key k).symm
    _ = Real.sin ((2 * ((8 : ℕ) : ℝ) - 1) * ψ) - Real.sin ((2 * ((0 : ℕ) : ℝ) - 1) * ψ) := by
        have := Finset.sum_range_sub (fun k : ℕ => Real.sin ((2 * (k : ℝ) - 1) * ψ)) 8
        simpa using this
    _ = Real.sin (15 * ψ) + Real.sin ψ := by
        have h15 : (2 * ((8 : ℕ) : ℝ) - 1) * ψ = 15 * ψ := by push_cast; ring
        have hm1 : (2 * ((0 : ℕ) : ℝ) - 1) * ψ = -ψ := by push_cast; ring
        rw [h15, hm1, Real.sin_neg]; ring

/-- Evaluation of `Σ_{k<8} cos(k * jπ/8)` for `j ≤ 15`: it is `8` at `j = 0`,
`1` for odd `j`, and `0` for even nonzero `j`. -/
theorem sum_cos_kj (j : ℕ) (hj : j ≤ 15) :
    ∑ k ∈ Finset.range 8, Real.cos ((k : ℝ) * ((j : ℝ) * Real.pi / 8))
      = if j = 0 then 8 else if j % 2 = 1 then 1 else 0 := by
  rcases Nat.eq_zero_or_pos j with hj0 | hj0
  · subst hj0; simp
  · have hjne : j ≠ 0 := Nat.pos_iff_ne_zero.mp hj0
    set ψ : ℝ := (j : ℝ) * Real.pi / 16 with hψ
    have hψpos : 0 < ψ := by
      have : (0 : ℝ) < (j : ℝ) := by exact_mod_cast hj0
      positivity
    have hψlt : ψ < Real.pi := by
      rw [hψ, div_lt_iff₀ (by norm_num : (0:ℝ) < 16)]
      have hj16 : (j : ℝ) < 16 := by exact_mod_cast Nat.lt_succ_of_le hj
      nlinarith [Real.pi_pos]
    have hsin : 0 < Real.sin ψ := Real.sin_pos_of_pos_of_lt_pi hψpos hψlt
    have harg : ∀ k : ℕ, (k : ℝ) * ((j : ℝ) * Real.pi / 8) = 2 * (k : ℝ) * ψ := by
      intro k; rw [hψ]; ring
    have hsum := sum_cos_two_mul_eq ψ
    rw [show (∑ k ∈ Finset.range 8, Real.cos (2 * (k : ℝ) * ψ))
          = ∑ k ∈ Finset.range 8, Real.cos ((k : ℝ) * ((j : ℝ) * Real.pi / 8)) from
        Finset.sum_congr rfl fun k _ => by rw [harg k]] at hsum
    have h15 : (15 : ℝ) * ψ = (j : ℝ) * Real.pi - ψ := by rw [hψ]; ring
    have hsin15 : Real.sin (15 * ψ) = -((-1) ^ j * Real.sin ψ) := by
      rw [h15, Real.sin_nat_mul_pi_sub]
    rw [hsin15] at hsum
    have h2sin : (2 : ℝ) * Real.sin ψ ≠ 0 := by positivity
    rcases Nat.even_or_odd j with hev | hod
    · have hpow : ((-1 : ℝ)) ^ j = 1 := hev.neg_one_pow
      have hj2 : j % 2 = 0 := Nat.even_iff.mp hev
      rw [if_neg hjne, hj2]
      have : (∑ k ∈ Finset.range 8, Real.cos ((k : ℝ) * ((j : ℝ) * Real.pi / 8)))
          * (2 * Real.sin ψ) = 0 := by rw [hsum, hpow]; ring
      have := mul_eq_zero.mp this
      simp only [h2sin, or_false] at this
      simpa using this
    · have hpow : ((-1 : ℝ)) ^ j = -1 := hod.neg_one_pow
      have hj2 : j % 2 = 1 := Nat.odd_iff.mp hod
      rw [if_neg hjne, hj2]
      have hval : (∑ k ∈ Finset.range 8, Real.cos ((k : ℝ) * ((j : ℝ) * Real.pi / 8)))
          * (2 * Real.sin ψ) = 1 * (2 * Real.sin ψ) := by rw [hsum, hpow]; ring
      have := mul_right_cancel₀ h2sin hval
      simpa using this

/-- Half-angle grid used by the DCT tables. -/
def dctAngle (n : ℕ) : ℝ := ((n : ℝ) + 0.5) * Real.pi / 8

/-- Product-of-cosines orthogonality along the DCT-III direction, for `m ≤ n`. -/
theorem cos_prod_sum_aux (n m : ℕ) (hn : n < 8) (hm : m ≤ n) :
    ∑ k ∈ Finset.range 8, Real.cos ((k : ℝ) * dctAngle n) * Real.cos ((k : ℝ) * dctAngle m)
      = if n = m then (9 : ℝ) / 2 else 1 / 2 := by
  have key : ∀ k : ℕ,
      Real.cos ((k : ℝ) * dctAngle n) * Real.cos ((k : ℝ) * dctAngle m)
        = (Real.cos ((k : ℝ) * (((n + m + 1 : ℕ) : ℝ) * Real.pi / 8))
            + Real.cos ((k : ℝ) * (((n - m : ℕ) : ℝ) * Real.pi / 8))) / 2 := by
    intro k
    have hx : ((k : ℝ) * (((n + m + 1 : ℕ) : ℝ) * Real.pi / 8)
          + (k : ℝ) * (((n - m : ℕ) : ℝ) * Real.pi / 8)) / 2 = (k : ℝ) * dctAngle n := by
      have hcast : ((n - m : ℕ) : ℝ) = (n : ℝ) - (m : ℝ) := Nat.cast_sub hm
      rw [hcast]; push_cast [dctAngle]; ring
    have hy : ((k : ℝ) * (((n + m + 1 : ℕ) : ℝ) * Real.pi / 8)
          - (k : ℝ) * (((n - m : ℕ) : ℝ) * Real.pi / 8)) / 2 = (k : ℝ) * dctAngle m := by
      have hcast : ((n - m : ℕ) : ℝ) = (n : ℝ) - (m : ℝ) := Nat.cast_sub hm
      rw [hcast]; push_cast [dctAngle]; ring
    have := Real.cos_add_cos ((k : ℝ) * (((n + m + 1 : ℕ) : ℝ) * Real.pi / 8))
      ((k : ℝ) * (((n - m : ℕ) : ℝ) * Real.pi / 8))
    rw [hx, hy] at this
    rw [this]; ring
  have hsplit :
      ∑ k ∈ Finset.range 8, Real.cos ((k : ℝ) * dctAngle n) * Real.cos ((k : ℝ) * dctAngle m)
        = ((∑ k ∈ Finset.range 8, Real.cos ((k : ℝ) * (((n + m + 1 : ℕ) : ℝ) * Real.pi / 8)))
          + ∑ k ∈ Finset.range 8, Real.cos ((k : ℝ) * (((n - m : ℕ) : ℝ) * Real.pi / 8))) / 2 := by
    rw [Finset.sum_congr rfl fun k _ => key k, ← Finset.sum_add_distrib, ← Finset.sum_div]
  rw [hsplit, sum_cos_kj (n + m + 1) (by omega), sum_cos_kj (n - m) (by omega)]
  rcases eq_or_ne n m with hnm | hnm
  · subst hnm
    rw [if_pos rfl]
    have h1 : n + n + 1 ≠ 0 := by omega
    have h2 : (n + n + 1) % 2 = 1 := by omega
    rw [if_neg h1, if_pos h2, if_pos (Nat.sub_self n)]
    norm_num
  · have hlt : m < n := lt_of_le_of_ne hm (Ne.symm hnm)
    rw [if_neg hnm]
    have hd0 : n - m ≠ 0 := by omega
    rw [if_neg (by omega : n + m + 1 ≠ 0), if_neg hd0]
    rcases Nat.even_or_odd (n - m) with hev | hod
    · have hd2 : (n - m) % 2 = 0 := Nat.even_iff.mp hev
      have hs2 : (n + m + 1) % 2 = 1 := by
        rcases hev with ⟨t, ht⟩; omega
      rw [if_pos hs2, if_neg (by omega : ¬ (n - m) % 2 = 1)]
      norm_num
    · have hd2 : (n - m) % 2 = 1 := Nat.odd_iff.mp hod
      have hs2 : (n + m + 1) % 2 = 0 := by
        rcases hod with ⟨t, ht⟩; omega
      rw [if_neg (by omega : ¬ (n + m + 1) % 2 = 1), if_pos hd2]
      norm_num

/-- Product-of-cosines orthogonality along the DCT-III direction. -/
theorem cos_prod_sum (n m : ℕ) (hn : n < 8) (hm : m < 8) :
    ∑ k ∈ Finset.range 8, Real.cos ((k : ℝ) * dctAngle n) * Real.cos ((k : ℝ) * dctAngle m)
      = if n = m then (9 : ℝ) / 2 else 1 / 2 := by
  rcases le_total m n with h | h
  · exact cos_prod_sum_aux n m hn h
  · have := cos_prod_sum_aux m n hm h
    calc ∑ k ∈ Finset.range 8, Real.cos ((k : ℝ) * dctAngle n) * Real.cos ((k : ℝ) * dctAngle m)
        = ∑ k ∈ Finset.range 8, Real.cos ((k : ℝ) * dctAngle m) * Real.cos ((k : ℝ) * dctAngle n) :=
          Finset.sum_congr rfl fun k _ => mul_comm _ _
      _ = if m = n then (9 : ℝ) / 2 else 1 / 2 := this
      _ = if n = m then (9 : ℝ) / 2 else 1 / 2 := by
          rcases eq_or_ne n m with hnm | hnm
          · rw [if_pos hnm, if_pos hnm.symm]
          · rw [if_neg hnm, if_neg (Ne.symm hnm)]

/-- Entrywise product of the inverse and forward DCT tables: the composition
matrix is the identity minus `dcEps` in every entry. -/
theorem idct_dct_entry (n m : ℕ) (hn : n < 8) (hm : m < 8) :
    ∑ k ∈ Finset.range 8, idct_coeff (n * 8 + k) * dct_coeff (k * 8 + m)
      = (if n = m then 1 else 0) - dcEps := by
  have hterm : ∀ k ∈ Finset.range 8,
      idct_coeff (n * 8 + k) * dct_coeff (k * 8 + m)
        = (if k = 0 then (0.35355339 : ℝ) else 0.5) ^ 2
            * (Real.cos ((k : ℝ) * dctAngle n) * Real.cos ((k : ℝ) * dctAngle m)) := by
    intro k hk
    have hk8 : k < 8 := Finset.mem_range.mp hk
    have e1 : (n * 8 + k) % 8 = k := by omega
    have e2 : (n * 8 + k) / 8 = n := by omega
    have e3 : (k * 8 + m) % 8 = m := by omega
    have e4 : (k * 8 + m) / 8 = k := by omega
    rw [idct_coeff, dct_coeff, e1, e2, e3, e4]
    have a1 : Real.pi / 8 * ((n : ℝ) + 0.5) * (k : ℝ) = (k : ℝ) * dctAngle n := by
      rw [dctAngle]; ring
    have a2 : ((m : ℝ) + 0.5) * ((k : ℝ) * Real.pi / 8) = (k : ℝ) * dctAngle m := by
      rw [dctAngle]; ring
    rw [a1, a2]; ring
  rw [Finset.sum_congr rfl hterm]
  have hsq : ∀ k : ℕ, (if k = 0 then (0.35355339 : ℝ) else 0.5) ^ 2
      = 1 / 4 + (if k = 0 then (0.35355339 : ℝ) ^ 2 - 1 / 4 else 0) := by
    intro k; rcases eq_or_ne k 0 with h | h <;> simp [h] <;> norm_num
  have hsplit : ∑ k ∈ Finset.range 8,
      (if k = 0 then (0.35355339 : ℝ) else 0.5) ^ 2
        * (Real.cos ((k : ℝ) * dctAngle n) * Real.cos ((k : ℝ) * dctAngle m))
      = (1 / 4) * ∑ k ∈ Finset.range 8,
          Real.cos ((k : ℝ) * dctAngle n) * Real.cos ((k : ℝ) * dctAngle m)
        + ((0.35355339 : ℝ) ^ 2 - 1 / 4) := by
    rw [Finset.mul_sum]
    have : ∀ k ∈ Finset.range 8,
        (if k = 0 then (0.35355339 : ℝ) else 0.5) ^ 2
            * (Real.cos ((k : ℝ) * dctAngle n) * Real.cos ((k : ℝ) * dctAngle m))
          = (1 / 4) * (Real.cos ((k : ℝ) * dctAngle n) * Real.cos ((k : ℝ) * dctAngle m))
            + (if k = 0 then (0.35355339 : ℝ) ^ 2 - 1 / 4 else 0)
              * (Real.cos ((k : ℝ) * dctAngle n) * Real.cos ((k : ℝ) * dctAngle m)) := by
      intro k _; rw [hsq k]; ring
    rw [Finset.sum_congr rfl this, Finset.sum_add_distrib]
    congr 1
    have hpick : ∀ k ∈ Finset.range 8,
        (if k = 0 then (0.35355339 : ℝ) ^ 2 - 1 / 4 else 0)
            * (Real.cos ((k : ℝ) * dctAngle n) * Real.cos ((k : ℝ) * dctAngle m))
          = if k = 0 then ((0.35355339 : ℝ) ^ 2 - 1 / 4)
              * (Real.cos ((k : ℝ) * dctAngle n) * Real.cos ((k : ℝ) * dctAngle m)) else 0 := by
      intro k _; rcases eq_or_ne k 0 with h | h <;> simp [h]
    rw [Finset.sum_congr rfl hpick, Finset.sum_ite_eq' (Finset.range 8) 0]
    simp
  rw [hsplit, cos_prod_sum n m hn hm, dcEps]
  rcases eq_or_ne n m with h | h <;> simp [h] <;> ring

/-- 1D round trip: `idct_1d_8 ∘ dct_1d_8` with the stored tables is the
identity minus `dcEps` times the row sum. -/
theorem idct_dct_1d (x : ℕ → ℝ) (n : ℕ) (hn : n < 8) :
    idct_1d_8 idct_coeff (dct_1d_8 dct_coeff x) n
      = x n - dcEps * ∑ m ∈ Finset.range 8, x m := by
  simp only [idct_1d_8, dct_1d_8]
  have step1 : ∑ k ∈ Finset.range 8,
      (∑ m ∈ Finset.range 8, x m * dct_coeff (k * 8 + m)) * idct_coeff (n * 8 + k)
      = ∑ m ∈ Finset.range 8,
          x m * ∑ k ∈ Finset.range 8, idct_coeff (n * 8 + k) * dct_coeff (k * 8 + m) := by
    have lhs1 : ∀ k ∈ Finset.range 8,
        (∑ m ∈ Finset.range 8, x m * dct_coeff (k * 8 + m)) * idct_coeff (n * 8 + k)
          = ∑ m ∈ Finset.range 8, x m * (idct_coeff (n * 8 + k) * dct_coeff (k * 8 + m)) := by
      intro k _
      rw [Finset.sum_mul]
      exact Finset.sum_congr rfl fun m _ => by ring
    rw [Finset.sum_congr rfl lhs1, Finset.sum_comm]
    exact Finset.sum_congr rfl fun m _ => (Finset.mul_sum _ _ _).symm
  rw [step1]
  have step2 : ∀ m ∈ Finset.range 8,
      x m * ∑ k ∈ Finset.range 8, idct_coeff (n * 8 + k) * dct_coeff (k * 8 + m)
        = (if n = m then x m else 0) - dcEps * x m := by
    intro m hm
    rw [idct_dct_entry n m hn (Finset.mem_range.mp hm)]
    rcases eq_or_ne n m with h | h <;> simp [h] <;> ring
  rw [Finset.sum_congr rfl step2, Finset.sum_sub_distrib,
    Finset.sum_ite_eq (Finset.range 8) n x, if_pos (Finset.mem_range.mpr hn),
    ← Finset.mul_sum]

/-- Row sum of the 8×8 row containing index `i`. -/
def rowSum (b : ℕ → ℝ) (i : ℕ) : ℝ := ∑ m ∈ Finset.range 8, b (i / 8 * 8 + m)

theorem transpose_transpose (b : ℕ → ℝ) (i : ℕ) (hi : i < 64) :
    transpose_8x8 (transpose_8x8 b) i = b i := by
  simp only [transpose_8x8]
  congr 1
  omega

theorem idct_1d_congr (c : ℕ → ℝ) (g g' : ℕ → ℝ) (h : ∀ k < 8, g k = g' k) (n : ℕ) :
    idct_1d_8 c g n = idct_1d_8 c g' n := by
  simp only [idct_1d_8]
  exact Finset.sum_congr rfl fun k hk => by rw [h k (Finset.mem_range.mp hk)]

theorem dct_1d_congr (c : ℕ → ℝ) (g g' : ℕ → ℝ) (h : ∀ k < 8, g k = g' k) (n : ℕ) :
    dct_1d_8 c g n = dct_1d_8 c g' n := by
  simp only [dct_1d_8]
  exact Finset.sum_congr rfl fun k hk => by rw [h k (Finset.mem_range.mp hk)]

theorem applyRows_idct_congr (b b' : ℕ → ℝ) (h : ∀ j < 64, b j = b' j) (i : ℕ) (hi : i < 64) :
    applyRows (idct_1d_8 idct_coeff) b i = applyRows (idct_1d_8 idct_coeff) b' i := by
  simp only [applyRows]
  exact idct_1d_congr _ _ _ (fun k hk => h _ (by omega)) _

theorem applyRows_dct_congr (b b' : ℕ → ℝ) (h : ∀ j < 64, b j = b' j) (i : ℕ) (hi : i < 64) :
    applyRows (dct_1d_8 dct_coeff) b i = applyRows (dct_1d_8 dct_coeff) b' i := by
  simp only [applyRows]
  exact dct_1d_congr _ _ _ (fun k hk => h _ (by omega)) _

theorem transpose_congr (b b' : ℕ → ℝ) (h : ∀ j < 64, b j = b' j) (i : ℕ) (hi : i < 64) :
    transpose_8x8 b i = transpose_8x8 b' i := by
  simp only [transpose_8x8]
  exact h _ (by omega)

/-- Row-wise inverse-then-forward composition: identity minus `dcEps` times the
row sum. -/
theorem rows_idct_dct (b : ℕ → ℝ) (i : ℕ) (hi : i < 64) :
    applyRows (idct_1d_8 idct_coeff) (applyRows (dct_1d_8 dct_coeff) b) i
      = b i - dcEps * rowSum b i := by
  simp only [applyRows]
  have hrow : ∀ k < 8,
      (fun n => dct_1d_8 dct_coeff
          (fun n1 => b ((i / 8 * 8 + n) / 8 * 8 + n1)) ((i / 8 * 8 + n) % 8)) k
        = (fun n => dct_1d_8 dct_coeff (fun n1 => b (i / 8 * 8 + n1)) n) k := by
    intro k hk
    have e1 : (i / 8 * 8 + k) / 8 = i / 8 := by omega
    have e2 : (i / 8 * 8 + k) % 8 = k := by omega
    simp only
    rw [e1, e2]
  rw [idct_1d_congr idct_coeff _ _ hrow]
  have := idct_dct_1d (fun n => b (i / 8 * 8 + n)) (i % 8) (by omega)
  rw [this]
  have hid : i / 8 * 8 + i % 8 = i := by omega
  show b (i / 8 * 8 + i % 8) - dcEps * ∑ m ∈ Finset.range 8, b (i / 8 * 8 + m)
      = b i - dcEps * rowSum b i
  rw [hid, rowSum]

theorem idct_1d_sub_smul (c : ℕ → ℝ) (A Bf : ℕ → ℝ) (e : ℝ) (n : ℕ) :
    idct_1d_8 c (fun j => A j - e * Bf j) n = idct_1d_8 c A n - e * idct_1d_8 c Bf n := by
  simp only [idct_1d_8]
  rw [Finset.mul_sum, ← Finset.sum_sub_distrib]
  exact Finset.sum_congr rfl fun k _ => by ring

theorem abs_dct_coeff_le (i : ℕ) : |dct_coeff i| ≤ 1 / 2 := by
  rw [dct_coeff, abs_mul]
  have h1 : |Real.cos (((i % 8 : ℕ) + (0.5 : ℝ)) * ((i / 8 : ℕ) * Real.pi / 8))| ≤ 1 :=
    Real.abs_cos_le_one _
  have h2 : |(if i / 8 = 0 then (0.35355339 : ℝ) else 0.5)| ≤ 1 / 2 := by
    rcases eq_or_ne (i / 8) 0 with h | h
    · rw [if_pos h, abs_of_nonneg (by norm_num)]; norm_num
    · rw [if_neg h, abs_of_nonneg (by norm_num)]; norm_num
  calc |Real.cos _| * |(if i / 8 = 0 then (0.35355339 : ℝ) else 0.5)|
      ≤ 1 * (1 / 2) := by
        exact mul_le_mul h1 h2 (abs_nonneg _) (by norm_num)
    _ = 1 / 2 := by norm_num

theorem abs_idct_coeff_le (i : ℕ) : |idct_coeff i| ≤ 1 / 2 := by
  rw [idct_coeff, abs_mul]
  have h1 : |Real.cos (Real.pi / 8 * ((i / 8 : ℕ) + (0.5 : ℝ)) * (i % 8 : ℕ))| ≤ 1 :=
    Real.abs_cos_le_one _
  have h2 : |(if i % 8 = 0 then (0.35355339 : ℝ) else 0.5)| ≤ 1 / 2 := by
    rcases eq_or_ne (i % 8) 0 with h | h
    · rw [if_pos h, abs_of_nonneg (by norm_num)]; norm_num
    · rw [if_neg h, abs_of_nonneg (by norm_num)]; norm_num
  calc |(if i % 8 = 0 then (0.35355339 : ℝ) else 0.5)| * |Real.cos _|
      ≤ (1 / 2) * 1 := by
        exact mul_le_mul h2 h1 (abs_nonneg _) (by norm_num)
    _ = 1 / 2 := by norm_num

theorem abs_dct_1d_le (x : ℕ → ℝ) (C : ℝ) (hx : ∀ n < 8, |x n| ≤ C) (k : ℕ) :
    |dct_1d_8 dct_coeff x k| ≤ 4 * C := by
  have hC : 0 ≤ C := le_trans (abs_nonneg _) (hx 0 (by norm_num))
  simp only [dct_1d_8]
  calc |∑ n ∈ Finset.range 8, x n * dct_coeff (k * 8 + n)|
      ≤ ∑ n ∈ Finset.range 8, |x n * dct_coeff (k * 8 + n)| :=
        Finset.abs_sum_le_sum_abs _ _
    _ ≤ ∑ n ∈ Finset.range 8, C * (1 / 2) := by
        apply Finset.sum_le_sum
        intro n hn
        rw [abs_mul]
        exact mul_le_mul (hx n (Finset.mem_range.mp hn)) (abs_dct_coeff_le _)
          (abs_nonneg _) hC
    _ = 4 * C := by rw [Finset.sum_const, Finset.card_range, nsmul_eq_mul]; push_cast; ring

theorem abs_idct_1d_le (x : ℕ → ℝ) (C : ℝ) (hx : ∀ n < 8, |x n| ≤ C) (k : ℕ) :
    |idct_1d_8 idct_coeff x k| ≤ 4 * C := by
  have hC : 0 ≤ C := le_trans (abs_nonneg _) (hx 0 (by norm_num))
  simp only [idct_1d_8]
  calc |∑ n ∈ Finset.range 8, x n * idct_coeff (k * 8 + n)|
      ≤ ∑ n ∈ Finset.range 8, |x n * idct_coeff (k * 8 + n)| :=
        Finset.abs_sum_le_sum_abs _ _
    _ ≤ ∑ n ∈ Finset.range 8, C * (1 / 2) := by
        apply Finset.sum_le_sum
        intro n hn
        rw [abs_mul]
        exact mul_le_mul (hx n (Finset.mem_range.mp hn)) (abs_idct_coeff_le _)
          (abs_nonneg _) hC
    _ = 4 * C := by rw [Finset.sum_const, Finset.card_range, nsmul_eq_mul]; push_cast; ring

/-- 2D round trip with the stored (truncated-constant) tables: every entry is
reproduced up to `136 * dcEps * B` for inputs bounded by `B`. -/
theorem rt2d_bound (b : ℕ → ℝ) (B : ℝ) (hB : ∀ j < 64, |b j| ≤ B)
    (i : ℕ) (hi : i < 64) :
    |idct_2d_8x8 (dct_2d_8x8 b) i - b i| ≤ 136 * dcEps * B := by
  have hBnn : 0 ≤ B := le_trans (abs_nonneg _) (hB 0 (by norm_num))
  set Rd := applyRows (dct_1d_8 dct_coeff) with hRd
  set Ri := applyRows (idct_1d_8 idct_coeff) with hRi
  set T := transpose_8x8 with hT
  set Y := T (Rd b) with hY
  -- p1: peel the inner double transpose
  have p1 : idct_2d_8x8 (dct_2d_8x8 b) i = Ri (T (Ri (Rd Y))) i := by
    rw [idct_2d_8x8, dct_2d_8x8]
    apply applyRows_idct_congr _ _ _ _ hi
    intro j hj
    apply transpose_congr _ _ _ _ hj
    intro j2 hj2
    apply applyRows_idct_congr _ _ _ _ hj2
    intro j3 hj3
    exact transpose_transpose _ _ hj3
  -- p2: collapse the middle idct∘dct composition
  have p2 : Ri (T (Ri (Rd Y))) i = Ri (T (fun j => Y j - dcEps * rowSum Y j)) i := by
    apply applyRows_idct_congr _ _ _ _ hi
    intro j hj
    apply transpose_congr _ _ _ _ hj
    intro j2 hj2
    exact rows_idct_dct Y j2 hj2
  -- p3: push the subtraction through the transpose and the final idct rows
  have p3 : Ri (T (fun j => Y j - dcEps * rowSum Y j)) i
      = Ri (T Y) i - dcEps * Ri (T (fun j => rowSum Y j)) i := by
    have hTsub : T (fun j => Y j - dcEps * rowSum Y j)
        = fun j => T Y j - dcEps * T (fun j2 => rowSum Y j2) j := by
      funext j; simp [hT, transpose_8x8]
    rw [hTsub, hRi]
    simp only [applyRows]
    exact idct_1d_sub_smul _ _ _ _ _
  -- p4: the leading term collapses to the 1D row composition on b
  have p4 : Ri (T Y) i = b i - dcEps * rowSum b i := by
    have : Ri (T Y) i = Ri (Rd b) i := by
      apply applyRows_idct_congr _ _ _ _ hi
      intro j hj
      exact transpose_transpose _ _ hj
    rw [this, hRi, hRd]
    exact rows_idct_dct b i hi
  -- bounds
  have hYb : ∀ j < 64, |Y j| ≤ 4 * B := by
    intro j hj
    rw [hY]
    simp only [hT, transpose_8x8, hRd, applyRows]
    exact abs_dct_1d_le _ B (fun n hn => hB _ (by omega)) _
  have hRSYb : ∀ j < 64, |rowSum Y j| ≤ 32 * B := by
    intro j hj
    rw [rowSum]
    calc |∑ m ∈ Finset.range 8, Y (j / 8 * 8 + m)|
        ≤ ∑ m ∈ Finset.range 8, |Y (j / 8 * 8 + m)| := Finset.abs_sum_le_sum_abs _ _
      _ ≤ ∑ _m ∈ Finset.range 8, 4 * B := by
          apply Finset.sum_le_sum
          intro m hm
          have hm8 := Finset.mem_range.mp hm
          exact hYb _ (by omega)
      _ = 32 * B := by rw [Finset.sum_const, Finset.card_range, nsmul_eq_mul]; push_cast; ring
  have hfinal : |Ri (T (fun j => rowSum Y j)) i| ≤ 128 * B := by
    rw [hRi]
    simp only [applyRows]
    have h32 : ∀ n < 8, |(fun n2 => T (fun j => rowSum Y j) (i / 8 * 8 + n2)) n| ≤ 32 * B := by
      intro n hn
      simp only [hT, transpose_8x8]
      exact hRSYb _ (by omega)
    have := abs_idct_1d_le _ (32 * B) h32 (i % 8)
    calc |idct_1d_8 idct_coeff (fun n => T (fun j => rowSum Y j) (i / 8 * 8 + n)) (i % 8)|
        ≤ 4 * (32 * B) := this
      _ = 128 * B := by ring
  have hRSb : |rowSum b i| ≤ 8 * B := by
    rw [rowSum]
    calc |∑ m ∈ Finset.range 8, b (i / 8 * 8 + m)|
        ≤ ∑ m ∈ Finset.range 8, |b (i / 8 * 8 + m)| := Finset.abs_sum_le_sum_abs _ _
      _ ≤ ∑ _m ∈ Finset.range 8, B := by
          apply Finset.sum_le_sum
          intro m hm
          have hm8 := Finset.mem_range.mp hm
          exact hB _ (by omega)
      _ = 8 * B := by rw [Finset.sum_const, Finset.card_range, nsmul_eq_mul]; push_cast; ring
  rw [p1, p2, p3, p4]
  have heps := dcEps_nonneg
  calc |b i - dcEps * rowSum b i - dcEps * Ri (T (fun j => rowSum Y j)) i - b i|
      = |(-(dcEps * rowSum b i)) + (-(dcEps * Ri (T (fun j => rowSum Y j)) i))| := by
        congr 1; ring
    _ ≤ |(-(dcEps * rowSum b i))| + |(-(dcEps * Ri (T (fun j => rowSum Y j)) i))| :=
        abs_add _ _
    _ = dcEps * |rowSum b i| + dcEps * |Ri (T (fun j => rowSum Y j)) i| := by
        rw [abs_neg, abs_neg, abs_mul, abs_mul, abs_of_nonneg heps]
    _ ≤ dcEps * (8 * B) + dcEps * (128 * B) := by
        have h1 := mul_le_mul_of_nonneg_left hRSb heps
        have h2 := mul_le_mul_of_nonneg_left hfinal heps
        linarith
    _ = 136 * dcEps * B := by ring

theorem whtSteps_go (n h : ℕ) (d : ℕ → ℝ) (hc : 0 < h ∧ h < n) :
    whtSteps n h d = whtSteps n (h * 2) (whtPass h d) := by
  rw [whtSteps, dif_pos hc]

theorem whtSteps_stop (n h : ℕ) (d : ℕ → ℝ) (hc : ¬(0 < h ∧ h < n)) :
    whtSteps n h d = d := by
  rw [whtSteps, dif_neg hc]

theorem whtSteps_2_eq (d : ℕ → ℝ) : whtSteps 2 1 d = whtPass 1 d := by
  rw [whtSteps_go 2 1 d (by omega), whtSteps_stop 2 2 _ (by omega)]

theorem whtSteps_4_eq (d : ℕ → ℝ) :
    whtSteps 4 1 d = whtPass 2 (whtPass 1 d) := by
  rw [whtSteps_go 4 1 d (by omega), whtSteps_go 4 2 _ (by omega),
    whtSteps_stop 4 4 _ (by omega)]

theorem whtSteps_8_eq (d : ℕ → ℝ) :
    whtSteps 8 1 d = whtPass 4 (whtPass 2 (whtPass 1 d)) := by
  rw [whtSteps_go 8 1 d (by omega), whtSteps_go 8 2 _ (by omega),
    whtSteps_go 8 4 _ (by omega), whtSteps_stop 8 8 _ (by omega)]

theorem whtSteps_16_eq (d : ℕ → ℝ) :
    whtSteps 16 1 d = whtPass 8 (whtPass 4 (whtPass 2 (whtPass 1 d))) := by
  rw [whtSteps_go 16 1 d (by omega), whtSteps_go 16 2 _ (by omega),
    whtSteps_go 16 4 _ (by omega), whtSteps_go 16 8 _ (by omega),
    whtSteps_stop 16 16 _ (by omega)]


theorem wht2_val_0 (d : ℕ → ℝ) :
    whtSteps 2 1 d 0 = d 0 + d 1 := by
  rw [whtSteps_2_eq]
  norm_num [whtPass]
  try ring

theorem wht2_val_1 (d : ℕ → ℝ) :
    whtSteps 2 1 d 1 = d 0 - d 1 := by
  rw [whtSteps_2_eq]
  norm_num [whtPass]
  try ring

theorem wht2_double (d : ℕ → ℝ) (c : ℝ) (k : ℕ) (hk : k < 2) :
    whtSteps 2 1 (fun j => whtSteps 2 1 d j * c) k * c = c * c * (2 * d k) := by
  interval_cases k
  · rw [wht2_val_0 (fun j => whtSteps 2 1 d j * c)]
    rw [wht2_val_0 d, wht2_val_1 d]
    ring
  · rw [wht2_val_1 (fun j => whtSteps 2 1 d j * c)]
    rw [wht2_val_0 d, wht2_val_1 d]
    ring

theorem wht4_val_0 (d : ℕ → ℝ) :
    whtSteps 4 1 d 0 = d 0 + d 1 + d 2 + d 3 := by
  rw [whtSteps_4_eq]
  norm_num [whtPass]
  try ring

theorem wht4_val_1 (d : ℕ → ℝ) :
    whtSteps 4 1 d 1 = d 0 - d 1 + d 2 - d 3 := by
  rw [whtSteps_4_eq]
  norm_num [whtPass]
  try ring

theorem wht4_val_2 (d : ℕ → ℝ) :
    whtSteps 4 1 d 2 = d 0 + d 1 - d 2 - d 3 := by
  rw [whtSteps_4_eq]
  norm_num [whtPass]
  try ring

theorem wht4_val_3 (d : ℕ → ℝ) :
    whtSteps 4 1 d 3 = d 0 - d 1 - d 2 + d 3 := by
  rw [whtSteps_4_eq]
  norm_num [whtPass]
  try ring

theorem wht4_double (d : ℕ → ℝ) (c : ℝ) (k : ℕ) (hk : k < 4) :
    whtSteps 4 1 (fun j => whtSteps 4 1 d j * c) k * c = c * c * (4 * d k) := by
  interval_cases k
  · rw [wht4_val_0 (fun j => whtSteps 4 1 d j * c)]
    rw [wht4_val_0 d, wht4_val_1 d, wht4_val_2 d, wht4_val_3 d]
    ring
  · rw [wht4_val_1 (fun j => whtSteps 4 1 d j * c)]
    rw [wht4_val_0 d, wht4_val_1 d, wht4_val_2 d, wht4_val_3 d]
    ring
  · rw [wht4_val_2 (fun j => whtSteps 4 1 d j * c)]
    rw [wht4_val_0 d, wht4_val_1 d, wht4_val_2 d, wht4_val_3 d]
    ring
  · rw [wht4_val_3 (fun j => whtSteps 4 1 d j * c)]
    rw [wht4_val_0 d, wht4_val_1 d, wht4_val_2 d, wht4_val_3 d]
    ring

theorem wht8_val_0 (d : ℕ → ℝ) :
    whtSteps 8 1 d 0 = d 0 + d 1 + d 2 + d 3 + d 4 + d 5 + d 6 + d 7 := by
  rw [whtSteps_8_eq]
  norm_num [whtPass]
  try ring

theorem wht8_val_1 (d : ℕ → ℝ) :
    whtSteps 8 1 d 1 = d 0 - d 1 + d 2 - d 3 + d 4 - d 5 + d 6 - d 7 := by
  rw [whtSteps_8_eq]
  norm_num [whtPass]
  try ring

theorem wht8_val_2 (d : ℕ → ℝ) :
    whtSteps 8 1 d 2 = d 0 + d 1 - d 2 - d 3 + d 4 + d 5 - d 6 - d 7 := by
  rw [whtSteps_8_eq]
  norm_num [whtPass]
  try ring

theorem wht8_val_3 (d : ℕ → ℝ) :
    whtSteps 8 1 d 3 = d 0 - d 1 - d 2 + d 3 + d 4 - d 5 - d 6 + d 7 := by
  rw [whtSteps_8_eq]
  norm_num [whtPass]
  try ring

theorem wht8_val_4 (d : ℕ → ℝ) :
    whtSteps 8 1 d 4 = d 0 + d 1 + d 2 + d 3 - d 4 - d 5 - d 6 - d 7 := by
  rw [whtSteps_8_eq]
  norm_num [whtPass]
  try ring

theorem wht8_val_5 (d : ℕ → ℝ) :
    whtSteps 8 1 d 5 = d 0 - d 1 + d 2 - d 3 - d 4 + d 5 - d 6 + d 7 := by
  rw [whtSteps_8_eq]
  norm_num [whtPass]
  try ring

theorem wht8_val_6 (d : ℕ → ℝ) :
    whtSteps 8 1 d 6 = d 0 + d 1 - d 2 - d 3 - d 4 - d 5 + d 6 + d 7 := by
  rw [whtSteps_8_eq]
  norm_num [whtPass]
  try ring

theorem wht8_val_7 (d : ℕ → ℝ) :
    whtSteps 8 1 d 7 = d 0 - d 1 - d 2 + d 3 - d 4 + d 5 + d 6 - d 7 := by
  rw [whtSteps_8_eq]
  norm_num [whtPass]
  try ring

theorem wht8_double (d : ℕ → ℝ) (c : ℝ) (k : ℕ) (hk : k < 8) :
    whtSteps 8 1 (fun j => whtSteps 8 1 d j * c) k * c = c * c * (8 * d k) := by
  interval_cases k
  · rw [wht8_val_0 (fun j => whtSteps 8 1 d j * c)]
    rw [wht8_val_0 d, wht8_val_1 d, wht8_val_2 d, wht8_val_3 d, wht8_val_4 d, wht8_val_5 d, wht8_val_6 d, wht8_val_7 d]
    ring
  · rw [wht8_val_1 (fun j => whtSteps 8 1 d j * c)]
    rw [wht8_val_0 d, wht8_val_1 d, wht8_val_2 d, wht8_val_3 d, wht8_val_4 d, wht8_val_5 d, wht8_val_6 d, wht8_val_7 d]
    ring
  · rw [wht8_val_2 (fun j => whtSteps 8 1 d j * c)]
    rw [wht8_val_0 d, wht8_val_1 d, wht8_val_2 d, wht8_val_3 d, wht8_val_4 d, wht8_val_5 d, wht8_val_6 d, wht8_val_7 d]
    ring
  · rw [wht8_val_3 (fun j => whtSteps 8 1 d j * c)]
    rw [wht8_val_0 d, wht8_val_1 d, wht8_val_2 d, wht8_val_3 d, wht8_val_4 d, wht8_val_5 d, wht8_val_6 d, wht8_val_7 d]
    ring
  · rw [wht8_val_4 (fun j => whtSteps 8 1 d j * c)]
    rw [wht8_val_0 d, wht8_val_1 d, wht8_val_2 d, wht8_val_3 d, wht8_val_4 d, wht8_val_5 d, wht8_val_6 d, wht8_val_7 d]
    ring
  · rw [wht8_val_5 (fun j => whtSteps 8 1 d j * c)]
    rw [wht8_val_0 d, wht8_val_1 d, wht8_val_2 d, wht8_val_3 d, wht8_val_4 d, wht8_val_5 d, wht8_val_6 d, wht8_val_7 d]
    ring
  · rw [wht8_val_6 (fun j => whtSteps 8 1 d j * c)]
    rw [wht8_val_0 d, wht8_val_1 d, wht8_val_2 d, wht8_val_3 d, wht8_val_4 d, wht8_val_5 d, wht8_val_6 d, wht8_val_7 d]
    ring
  · rw [wht8_val_7 (fun j => whtSteps 8 1 d j * c)]
    rw [wht8_val_0 d, wht8_val_1 d, wht8_val_2 d, wht8_val_3 d, wht8_val_4 d, wht8_val_5 d, wht8_val_6 d, wht8_val_7 d]
    ring

theorem wht16_val_0 (d : ℕ → ℝ) :
    whtSteps 16 1 d 0 = d 0 + d 1 + d 2 + d 3 + d 4 + d 5 + d 6 + d 7 + d 8 + d 9 + d 10 + d 11 + d 12 + d 13 + d 14 + d 15 := by
  rw [whtSteps_16_eq]
  norm_num [whtPass]
  try ring

theorem wht16_val_1 (d : ℕ → ℝ) :
    whtSteps 16 1 d 1 = d 0 - d 1 + d 2 - d 3 + d 4 - d 5 + d 6 - d 7 + d 8 - d 9 + d 10 - d 11 + d 12 - d 13 + d 14 - d 15 := by
  rw [whtSteps_16_eq]
  norm_num [whtPass]
  try ring

theorem wht16_val_2 (d : ℕ → ℝ) :
    whtSteps 16 1 d 2 = d 0 + d 1 - d 2 - d 3 + d 4 + d 5 - d 6 - d 7 + d 8 + d 9 - d 10 - d 11 + d 12 + d 13 - d 14 - d 15 := by
  rw [whtSteps_16_eq]
  norm_num [whtPass]
  try ring

theorem wht16_val_3 (d : ℕ → ℝ) :
    whtSteps 16 1 d 3 = d 0 - d 1 - d 2 + d 3 + d 4 - d 5 - d 6 + d 7 + d 8 - d 9 - d 10 + d 11 + d 12 - d 13 - d 14 + d 15 := by
  rw [whtSteps_16_eq]
  norm_num [whtPass]
  try ring

theorem wht16_val_4 (d : ℕ → ℝ) :
    whtSteps 16 1 d 4 = d 0 + d 1 + d 2 + d 3 - d 4 - d 5 - d 6 - d 7 + d 8 + d 9 + d 10 + d 11 - d 12 - d 13 - d 14 - d 15 := by
  rw [whtSteps_16_eq]
  norm_num [whtPass]
  try ring

theorem wht16_val_5 (d : ℕ → ℝ) :
    whtSteps 16 1 d 5 = d 0 - d 1 + d 2 - d 3 - d 4 + d 5 - d 6 + d 7 + d 8 - d 9 + d 10 - d 11 - d 12 + d 13 - d 14 + d 15 := by
  rw [whtSteps_16_eq]
  norm_num [whtPass]
  try ring

theorem wht16_val_6 (d : ℕ → ℝ) :
    whtSteps 16 1 d 6 = d 0 + d 1 - d 2 - d 3 - d 4 - d 5 + d 6 + d 7 + d 8 + d 9 - d 10 - d 11 - d 12 - d 13 + d 14 + d 15 := by
  rw [whtSteps_16_eq]
  norm_num [whtPass]
  try ring

theorem wht16_val_7 (d : ℕ → ℝ) :
    whtSteps 16 1 d 7 = d 0 - d 1 - d 2 + d 3 - d 4 + d 5 + d 6 - d 7 + d 8 - d 9 - d 10 + d 11 - d 12 + d 13 + d 14 - d 15 := by
  rw [whtSteps_16_eq]
  norm_num [whtPass]
  try ring

theorem wht16_val_8 (d : ℕ → ℝ) :
    whtSteps 16 1 d 8 = d 0 + d 1 + d 2 + d 3 + d 4 + d 5 + d 6 + d 7 - d 8 - d 9 - d 10 - d 11 - d 12 - d 13 - d 14 - d 15 := by
  rw [whtSteps_16_eq]
  norm_num [whtPass]
  try ring

theorem wht16_val_9 (d : ℕ → ℝ) :
    whtSteps 16 1 d 9 = d 0 - d 1 + d 2 - d 3 + d 4 - d 5 + d 6 - d 7 - d 8 + d 9 - d 10 + d 11 - d 12 + d 13 - d 14 + d 15 := by
  rw [whtSteps_16_eq]
  norm_num [whtPass]
  try ring

theorem wht16_val_10 (d : ℕ → ℝ) :
    whtSteps 16 1 d 10 = d 0 + d 1 - d 2 - d 3 + d 4 + d 5 - d 6 - d 7 - d 8 - d 9 + d 10 + d 11 - d 12 - d 13 + d 14 + d 15 := by
  rw [whtSteps_16_eq]
  norm_num [whtPass]
  try ring

theorem wht16_val_11 (d : ℕ → ℝ) :
    whtSteps 16 1 d 11 = d 0 - d 1 - d 2 + d 3 + d 4 - d 5 - d 6 + d 7 - d 8 + d 9 + d 10 - d 11 - d 12 + d 13 + d 14 - d 15 := by
  rw [whtSteps_16_eq]
  norm_num [whtPass]
  try ring

theorem wht16_val_12 (d : ℕ → ℝ) :
    whtSteps 16 1 d 12 = d 0 + d 1 + d 2 + d 3 - d 4 - d 5 - d 6 - d 7 - d 8 - d 9 - d 10 - d 11 + d 12 + d 13 + d 14 + d 15 := by
  rw [whtSteps_16_eq]
  norm_num [whtPass]
  try ring

theorem wht16_val_13 (d : ℕ → ℝ) :
    whtSteps 16 1 d 13 = d 0 - d 1 + d 2 - d 3 - d 4 + d 5 - d 6 + d 7 - d 8 + d 9 - d 10 + d 11 + d 12 - d 13 + d 14 - d 15 := by
  rw [whtSteps_16_eq]
  norm_num [whtPass]
  try ring

theorem wht16_val_14 (d : ℕ → ℝ) :
    whtSteps 16 1 d 14 = d 0 + d 1 - d 2 - d 3 - d 4 - d 5 + d 6 + d 7 - d 8 - d 9 + d 10 + d 11 + d 12 + d 13 - d 14 - d 15 := by
  rw [whtSteps_16_eq]
  norm_num [whtPass]
  try ring

theorem wht16_val_15 (d : ℕ → ℝ) :
    whtSteps 16 1 d 15 = d 0 - d 1 - d 2 + d 3 - d 4 + d 5 + d 6 - d 7 - d 8 + d 9 + d 10 - d 11 + d 12 - d 13 - d 14 + d 15 := by
  rw [whtSteps_16_eq]
  norm_num [whtPass]
  try ring

theorem wht16_double (d : ℕ → ℝ) (c : ℝ) (k : ℕ) (hk : k < 16) :
    whtSteps 16 1 (fun j => whtSteps 16 1 d j * c) k * c = c * c * (16 * d k) := by
  interval_cases k
  · rw [wht16_val_0 (fun j => whtSteps 16 1 d j * c)]
    rw [wht16_val_0 d, wht16_val_1 d, wht16_val_2 d, wht16_val_3 d, wht16_val_4 d, wht16_val_5 d, wht16_val_6 d, wht16_val_7 d, wht16_val_8 d, wht16_val_9 d, wht16_val_10 d, wht16_val_11 d, wht16_val_12 d, wht16_val_13 d, wht16_val_14 d, wht16_val_15 d]
    ring
  · rw [wht16_val_1 (fun j => whtSteps 16 1 d j * c)]
    rw [wht16_val_0 d, wht16_val_1 d, wht16_val_2 d, wht16_val_3 d, wht16_val_4 d, wht16_val_5 d, wht16_val_6 d, wht16_val_7 d, wht16_val_8 d, wht16_val_9 d, wht16_val_10 d, wht16_val_11 d, wht16_val_12 d, wht16_val_13 d, wht16_val_14 d, wht16_val_15 d]
    ring
  · rw [wht16_val_2 (fun j => whtSteps 16 1 d j * c)]
    rw [wht16_val_0 d, wht16_val_1 d, wht16_val_2 d, wht16_val_3 d, wht16_val_4 d, wht16_val_5 d, wht16_val_6 d, wht16_val_7 d, wht16_val_8 d, wht16_val_9 d, wht16_val_10 d, wht16_val_11 d, wht16_val_12 d, wht16_val_13 d, wht16_val_14 d, wht16_val_15 d]
    ring
  · rw [wht16_val_3 (fun j => whtSteps 16 1 d j * c)]
    rw [wht16_val_0 d, wht16_val_1 d, wht16_val_2 d, wht16_val_3 d, wht16_val_4 d, wht16_val_5 d, wht16_val_6 d, wht16_val_7 d, wht16_val_8 d, wht16_val_9 d, wht16_val_10 d, wht16_val_11 d, wht16_val_12 d, wht16_val_13 d, wht16_val_14 d, wht16_val_15 d]
    ring
  · rw [wht16_val_4 (fun j => whtSteps 16 1 d j * c)]
    rw [wht16_val_0 d, wht16_val_1 d, wht16_val_2 d, wht16_val_3 d, wht16_val_4 d, wht16_val_5 d, wht16_val_6 d, wht16_val_7 d, wht16_val_8 d, wht16_val_9 d, wht16_val_10 d, wht16_val_11 d, wht16_val_12 d, wht16_val_13 d, wht16_val_14 d, wht16_val_15 d]
    ring
  · rw [wht16_val_5 (fun j => whtSteps 16 1 d j * c)]
    rw [wht16_val_0 d, wht16_val_1 d, wht16_val_2 d, wht16_val_3 d, wht16_val_4 d, wht16_val_5 d, wht16_val_6 d, wht16_val_7 d, wht16_val_8 d, wht16_val_9 d, wht16_val_10 d, wht16_val_11 d, wht16_val_12 d, wht16_val_13 d, wht16_val_14 d, wht16_val_15 d]
    ring
  · rw [wht16_val_6 (fun j => whtSteps 16 1 d j * c)]
    rw [wht16_val_0 d, wht16_val_1 d, wht16_val_2 d, wht16_val_3 d, wht16_val_4 d, wht16_val_5 d, wht16_val_6 d, wht16_val_7 d, wht16_val_8 d, wht16_val_9 d, wht16_val_10 d, wht16_val_11 d, wht16_val_12 d, wht16_val_13 d, wht16_val_14 d, wht16_val_15 d]
    ring
  · rw [wht16_val_7 (fun j => whtSteps 16 1 d j * c)]
    rw [wht16_val_0 d, wht16_val_1 d, wht16_val_2 d, wht16_val_3 d, wht16_val_4 d, wht16_val_5 d, wht16_val_6 d, wht16_val_7 d, wht16_val_8 d, wht16_val_9 d, wht16_val_10 d, wht16_val_11 d, wht16_val_12 d, wht16_val_13 d, wht16_val_14 d, wht16_val_15 d]
    ring
  · rw [wht16_val_8 (fun j => whtSteps 16 1 d j * c)]
    rw [wht16_val_0 d, wht16_val_1 d, wht16_val_2 d, wht16_val_3 d, wht16_val_4 d, wht16_val_5 d, wht16_val_6 d, wht16_val_7 d, wht16_val_8 d, wht16_val_9 d, wht16_val_10 d, wht16_val_11 d, wht16_val_12 d, wht16_val_13 d, wht16_val_14 d, wht16_val_15 d]
    ring
  · rw [wht16_val_9 (fun j => whtSteps 16 1 d j * c)]
    rw [wht16_val_0 d, wht16_val_1 d, wht16_val_2 d, wht16_val_3 d, wht16_val_4 d, wht16_val_5 d, wht16_val_6 d, wht16_val_7 d, wht16_val_8 d, wht16_val_9 d, wht16_val_10 d, wht16_val_11 d, wht16_val_12 d, wht16_val_13 d, wht16_val_14 d, wht16_val_15 d]
    ring
  · rw [wht16_val_10 (fun j => whtSteps 16 1 d j * c)]
    rw [wht16_val_0 d, wht16_val_1 d, wht16_val_2 d, wht16_val_3 d, wht16_val_4 d, wht16_val_5 d, wht16_val_6 d, wht16_val_7 d, wht16_val_8 d, wht16_val_9 d, wht16_val_10 d, wht16_val_11 d, wht16_val_12 d, wht16_val_13 d, wht16_val_14 d, wht16_val_15 d]
    ring
  · rw [wht16_val_11 (fun j => whtSteps 16 1 d j * c)]
    rw [wht16_val_0 d, wht16_val_1 d, wht16_val_2 d, wht16_val_3 d, wht16_val_4 d, wht16_val_5 d, wht16_val_6 d, wht16_val_7 d, wht16_val_8 d, wht16_val_9 d, wht16_val_10 d, wht16_val_11 d, wht16_val_12 d, wht16_val_13 d, wht16_val_14 d, wht16_val_15 d]
    ring
  · rw [wht16_val_12 (fun j => whtSteps 16 1 d j * c)]
    rw [wht16_val_0 d, wht16_val_1 d, wht16_val_2 d, wht16_val_3 d, wht16_val_4 d, wht16_val_5 d, wht16_val_6 d, wht16_val_7 d, wht16_val_8 d, wht16_val_9 d, wht16_val_10 d, wht16_val_11 d, wht16_val_12 d, wht16_val_13 d, wht16_val_14 d, wht16_val_15 d]
    ring
  · rw [wht16_val_13 (fun j => whtSteps 16 1 d j * c)]
    rw [wht16_val_0 d, wht16_val_1 d, wht16_val_2 d, wht16_val_3 d, wht16_val_4 d, wht16_val_5 d, wht16_val_6 d, wht16_val_7 d, wht16_val_8 d, wht16_val_9 d, wht16_val_10 d, wht16_val_11 d, wht16_val_12 d, wht16_val_13 d, wht16_val_14 d, wht16_val_15 d]
    ring
  · rw [wht16_val_14 (fun j => whtSteps 16 1 d j * c)]
    rw [wht16_val_0 d, wht16_val_1 d, wht16_val_2 d, wht16_val_3 d, wht16_val_4 d, wht16_val_5 d, wht16_val_6 d, wht16_val_7 d, wht16_val_8 d, wht16_val_9 d, wht16_val_10 d, wht16_val_11 d, wht16_val_12 d, wht16_val_13 d, wht16_val_14 d, wht16_val_15 d]
    ring
  · rw [wht16_val_15 (fun j => whtSteps 16 1 d j * c)]
    rw [wht16_val_0 d, wht16_val_1 d, wht16_val_2 d, wht16_val_3 d, wht16_val_4 d, wht16_val_5 d, wht16_val_6 d, wht16_val_7 d, wht16_val_8 d, wht16_val_9 d, wht16_val_10 d, wht16_val_11 d, wht16_val_12 d, wht16_val_13 d, wht16_val_14 d, wht16_val_15 d]
    ring

theorem walsh_hadamard_eta (n : ℕ) (d : ℕ → ℝ) :
    walsh_hadamard_1d n d = fun j => whtSteps n 1 d j * (1 / Real.sqrt n) := rfl

/-- Applying `walsh_hadamard_1d` twice at any admissible group size is the
identity (the butterfly is self-inverse and the two `1/sqrt n` factors cancel). -/
theorem wht_involution (n : ℕ) (hn : n = 1 ∨ n = 2 ∨ n = 4 ∨ n = 8 ∨ n = 16)
    (d : ℕ → ℝ) (k : ℕ) (hk : k < n) :
    walsh_hadamard_1d n (walsh_hadamard_1d n d) k = d k := by
  have hnpos : (0 : ℝ) ≤ (n : ℝ) := by positivity
  have hc : 1 / Real.sqrt n * (1 / Real.sqrt n) = 1 / (n : ℝ) := by
    rw [div_mul_div_comm, one_mul, Real.mul_self_sqrt hnpos]
  rw [walsh_hadamard_eta n (walsh_hadamard_1d n d), walsh_hadamard_eta n d]
  beta_reduce
  rcases hn with h | h | h | h | h <;> subst h
  · rw [whtSteps_stop 1 1 _ (by omega), whtSteps_stop 1 1 _ (by omega)]
    simp
  · rw [wht2_double d _ k hk, hc]
    push_cast
    ring
  · rw [wht4_double d _ k hk, hc]
    push_cast
    ring
  · rw [wht8_double d _ k hk, hc]
    push_cast
    ring
  · rw [wht16_double d _ k hk, hc]
    push_cast
    ring

/-- The group-dimension Hadamard stage applied twice is the identity on a
stack of `group_size * 64` entries. -/
theorem colsApply_wht_wht (n : ℕ) (hn : n = 1 ∨ n = 2 ∨ n = 4 ∨ n = 8 ∨ n = 16)
    (s : ℕ → ℝ) (idx : ℕ) (hidx : idx < n * 64) :
    colsApply (walsh_hadamard_1d n) (colsApply (walsh_hadamard_1d n) s) idx = s idx := by
  simp only [colsApply]
  have hfun : (fun k => walsh_hadamard_1d n
        (fun k2 => s (k2 * 64 + (k * 64 + idx % 64) % 64)) ((k * 64 + idx % 64) / 64))
      = fun k => walsh_hadamard_1d n (fun k2 => s (k2 * 64 + idx % 64)) k := by
    funext k
    have hmod : (k * 64 + idx % 64) % 64 = idx % 64 := by omega
    have hdiv : (k * 64 + idx % 64) / 64 = k := by omega
    rw [hmod, hdiv]
  rw [hfun, wht_involution n hn _ (idx / 64) (by omega)]
  congr 1
  omega

theorem idct_2d_congr (b b' : ℕ → ℝ) (h : ∀ j < 64, b j = b' j) (i : ℕ) (hi : i < 64) :
    idct_2d_8x8 b i = idct_2d_8x8 b' i := by
  rw [idct_2d_8x8, idct_2d_8x8]
  apply applyRows_idct_congr _ _ _ _ hi
  intro j hj
  apply transpose_congr _ _ _ _ hj
  intro j2 hj2
  apply applyRows_idct_congr _ _ _ _ hj2
  intro j3 hj3
  exact transpose_congr _ _ h _ hj3

/-- C1 assembly: the full 3D round trip at any admissible group size
reproduces a bounded stack within `136 * dcEps * B` per element. -/
theorem rt3d_bound (n : ℕ) (hn : n = 1 ∨ n = 2 ∨ n = 4 ∨ n = 8 ∨ n = 16)
    (s : ℕ → ℝ) (B : ℝ) (hB : ∀ i < n * 64, |s i| ≤ B)
    (idx : ℕ) (hidx : idx < n * 64) :
    |inverse_transform_3d n (transform_3d n s) idx - s idx| ≤ 136 * dcEps * B := by
  rw [inverse_transform_3d, transform_3d]
  rw [show patchApply idct_2d_8x8
        (colsApply (walsh_hadamard_1d n)
          (colsApply (walsh_hadamard_1d n) (patchApply dct_2d_8x8 s))) idx
      = idct_2d_8x8 (fun j =>
          colsApply (walsh_hadamard_1d n)
            (colsApply (walsh_hadamard_1d n) (patchApply dct_2d_8x8 s))
              (idx / 64 * 64 + j)) (idx % 64) from rfl]
  have hnpos : 0 < n := by rcases hn with h | h | h | h | h <;> omega
  have step1 : idct_2d_8x8 (fun j =>
        colsApply (walsh_hadamard_1d n)
          (colsApply (walsh_hadamard_1d n) (patchApply dct_2d_8x8 s))
            (idx / 64 * 64 + j)) (idx % 64)
      = idct_2d_8x8 (fun j => patchApply dct_2d_8x8 s (idx / 64 * 64 + j)) (idx % 64) := by
    apply idct_2d_congr _ _ _ _ (by omega)
    intro j hj
    exact colsApply_wht_wht n hn _ (idx / 64 * 64 + j) (by omega)
  rw [step1]
  have step2 : idct_2d_8x8 (fun j => patchApply dct_2d_8x8 s (idx / 64 * 64 + j)) (idx % 64)
      = idct_2d_8x8 (dct_2d_8x8 (fun j => s (idx / 64 * 64 + j))) (idx % 64) := by
    apply idct_2d_congr _ _ _ _ (by omega)
    intro j hj
    simp only [patchApply]
    have hdiv : (idx / 64 * 64 + j) / 64 = idx / 64 := by omega
    have hmod : (idx / 64 * 64 + j) % 64 = j := by omega
    rw [hdiv, hmod]
  rw [step2]
  have hblock : ∀ j < 64, |(fun j2 => s (idx / 64 * 64 + j2)) j| ≤ B := by
    intro j hj
    exact hB _ (by omega)
  have := rt2d_bound (fun j2 => s (idx / 64 * 64 + j2)) B hblock (idx % 64) (by omega)
  have hidxeq : idx / 64 * 64 + idx % 64 = idx := by omega
  calc |idct_2d_8x8 (dct_2d_8x8 fun j => s (idx / 64 * 64 + j)) (idx % 64) - s idx|
      = |idct_2d_8x8 (dct_2d_8x8 fun j => s (idx / 64 * 64 + j)) (idx % 64)
          - (fun j2 => s (idx / 64 * 64 + j2)) (idx % 64)| := by
        rw [show (fun j2 => s (idx / 64 * 64 + j2)) (idx % 64) = s idx from by
          simp only; rw [hidxeq]]
    _ ≤ 136 * dcEps * B := this

/-- C1: for every group size in 1, 2, 4, 8, 16 and every stack of patch data
(values bounded by 255, the range produced by `split_channels`), applying
`transform_3d` followed by `inverse_transform_3d` reproduces every element
within `1e-4` absolute tolerance. -/
theorem C1_transform_roundtrip (n : ℕ) (hn : n = 1 ∨ n = 2 ∨ n = 4 ∨ n = 8 ∨ n = 16)
    (s : ℕ → ℝ) (hB : ∀ i < n * 64, |s i| ≤ 255)
    (idx : ℕ) (hidx : idx < n * 64) :
    |inverse_transform_3d n (transform_3d n s) idx - s idx| ≤ 1e-4 := by
  have h := rt3d_bound n hn s 255 hB idx hidx
  have hd := dcEps_le
  have hdn := dcEps_nonneg
  nlinarith

/-- Witness for C1 at group size 1 and the zero stack. -/
theorem C1_transform_roundtrip_witness :
    |inverse_transform_3d 1 (transform_3d 1 (fun _ => (0 : ℝ))) 0 - (fun _ => (0 : ℝ)) 0|
      ≤ 1e-4 :=
  C1_transform_roundtrip 1 (Or.inl rfl) (fun _ => (0 : ℝ))
    (fun i _ => by norm_num) 0 (by norm_num)

/-- `extract_patch`: copy the 8×8 window at `(x, y)` out of a planar channel. -/
def extract_patch (img : ℕ → ℝ) (w x y : ℕ) : ℕ → ℝ :=
  fun j => img ((y + j / 8) * w + x + j % 8)

/-- One row of squared differences inside `compute_ssd_flat`. -/
def ssdRow (img : ℕ → ℝ) (w x y : ℕ) (ref : ℕ → ℝ) (dy : ℕ) : ℝ :=
  ∑ dx ∈ Finset.range 8,
    (img ((y + dy) * w + x + dx) - ref (dy * 8 + dx)) * (img ((y + dy) * w + x + dx) - ref (dy * 8 + dx))

/-- `compute_ssd_flat`: row-by-row accumulation with the early return
(`if dist > stop_thr return dist`, undivided) and the final division by
`BLOCK_AREA = 64`; `Sum.inl` records an early return. -/
def compute_ssd_flat (img : ℕ → ℝ) (w x y : ℕ) (ref : ℕ → ℝ) (stop_thr : ℝ) : ℝ :=
  match (List.range 8).foldl (fun st dy =>
    match st with
    | Sum.inl v => Sum.inl v
    | Sum.inr dist =>
        if dist + ssdRow img w x y ref dy > stop_thr then
          Sum.inl (dist + ssdRow img w x y ref dy)
        else Sum.inr (dist + ssdRow img w x y ref dy)) (Sum.inr 0) with
  | Sum.inl v => v
  | Sum.inr dist => dist / 64

/-- Candidate record of `block_matching_joint` (`struct Match`). -/
structure BmMatch where
  dist : ℝ
  x : ℕ
  y : ℕ

/-- Inclusive coordinate range `a..=b` as a list. -/
def rangeIncl (a b : ℕ) : List ℕ := (List.range (b + 1 - a)).map (a + ·)

/-- The clamped 19×19 search window around `(rx, ry)`, row-major. -/
def searchCoords (w h rx ry : ℕ) : List (ℕ × ℕ) :=
  (rangeIncl (ry - 9) (min (ry + 9) (h - 8))).flatMap fun y =>
    (rangeIncl (rx - 9) (min (rx + 9) (w - 8))).map fun x => (x, y)

/-- Candidate test of the search loop: three-channel SSD with progressive
budgets, early `continue` on each partial test, capped at 1024 entries. -/
def bmStep (ch0 ch1 ch2 : ℕ → ℝ) (w rx ry : ℕ) (threshold : ℝ)
    (refr refg refb : ℕ → ℝ) (acc : List BmMatch) (c : ℕ × ℕ) : List BmMatch :=
  if c.1 = rx ∧ c.2 = ry then acc
  else
    let d_r := compute_ssd_flat ch0 w c.1 c.2 refr threshold
    if d_r > threshold then acc
    else
      let d_g := compute_ssd_flat ch1 w c.1 c.2 refg (threshold - d_r)
      if d_r + d_g > threshold then acc
      else
        let d_b := compute_ssd_flat ch2 w c.1 c.2 refb (threshold - (d_r + d_g))
        if d_r + d_g + d_b < threshold then
          if acc.length < 1024 then acc ++ [⟨d_r + d_g + d_b, c.1, c.2⟩] else acc
        else acc

/-- The candidate list accumulated by `block_matching_joint`, seeded with the
zero-distance reference entry. -/
def bmCandidates (ch0 ch1 ch2 : ℕ → ℝ) (w h rx ry : ℕ) (threshold : ℝ) : List BmMatch :=
  (searchCoords w h rx ry).foldl
    (bmStep ch0 ch1 ch2 w rx ry threshold
      (extract_patch ch0 w rx ry) (extract_patch ch1 w rx ry) (extract_patch ch2 w rx ry))
    [⟨0, rx, ry⟩]

/-- Loop body of `prev_power_of_two`: double `p` while `p * 2 <= x`. -/
def prevPow2Go (x p : ℕ) : ℕ :=
  if hc : 0 < p ∧ p * 2 ≤ x then prevPow2Go x (p * 2) else p
termination_by x - p
decreasing_by omega

/-- `prev_power_of_two` from denoising.rs. -/
def prev_power_of_two (x : ℕ) : ℕ :=
  if x = 0 then 0 else prevPow2Go x 1

/-- The output order of `sort_unstable_by` is specified only up to this
contract: a permutation of the input that is sorted by distance. -/
def sortedByDist (l : List BmMatch) : Prop :=
  l.Sorted fun a b => a.dist ≤ b.dist

/-- Admissibility of a model of `sort_unstable_by` on candidate lists. -/
def SortSpec (sorter : List BmMatch → List BmMatch) : Prop :=
  ∀ l, (sorter l).Perm l ∧ sortedByDist (sorter l)

/-- The pass-dependent matching threshold: `max_dist_hard` in pass 1, half of
it in pass 2. -/
def bmThreshold (is_step_1 : Bool) (params : Bm3dParams) : ℝ :=
  if is_step_1 then params.max_dist_hard else params.max_dist_hard * 0.5

/-- `block_matching_joint`, parameterised by an admissible sorter: collect
candidates, sort by distance, keep the first `prev_power_of_two (min 16 count)`
locations. -/
def block_matching_joint (sorter : List BmMatch → List BmMatch)
    (ch0 ch1 ch2 : ℕ → ℝ) (w h rx ry : ℕ) (is_step_1 : Bool) (params : Bm3dParams) :
    List (ℕ × ℕ) :=
  ((sorter (bmCandidates ch0 ch1 ch2 w h rx ry (bmThreshold is_step_1 params))).take
      (prev_power_of_two
        (min 16 (bmCandidates ch0 ch1 ch2 w h rx ry (bmThreshold is_step_1 params)).length))).map
    fun m => (m.x, m.y)

/-- `hard_threshold` on a stack of length `len`: the filtered stack and the
count of retained coefficients. -/
def hard_threshold (len : ℕ) (s : ℕ → ℝ) (th : ℝ) : (ℕ → ℝ) × ℕ :=
  (fun i => if i = 0 then s i else if |s i| < th then 0 else s i,
   ((Finset.range len).filter fun i => i = 0 ∨ ¬ |s i| < th).card)

/-- The pass-1 weight computed in `run_bm3d_step_joint` from the nonzero count. -/
def step1Weight (nonzero : ℕ) : ℝ :=
  if 0 < nonzero then 1 / (nonzero : ℝ) else 1.0

/-- Per-coefficient Wiener gain `energy / (energy + sigma^2 + 1e-5)`. -/
def wienerCoef (g sigma : ℝ) : ℝ :=
  g * g / (g * g + sigma * sigma + 1e-5)

/-- Sum of squared gains accumulated by `wiener_filter` (index 0 contributes 1). -/
def wienerSum (len : ℕ) (guide : ℕ → ℝ) (sigma : ℝ) : ℝ :=
  ∑ i ∈ Finset.range len,
    (if i = 0 then 1 else wienerCoef (guide i) sigma * wienerCoef (guide i) sigma)

/-- `wiener_filter` on stacks of length `len`: the shrunk noisy stack and the
group weight `1/Σg²` (or `1.0` when the sum is not positive). -/
def wiener_filter (len : ℕ) (noisy guide : ℕ → ℝ) (sigma : ℝ) : (ℕ → ℝ) × ℝ :=
  (fun i => if i = 0 then noisy i else noisy i * wienerCoef (guide i) sigma,
   if 0 < wienerSum len guide sigma then 1 / wienerSum len guide sigma else 1.0)

/-- C3: `hard_threshold` zeroes exactly the entries at index `i > 0` with
`|s i| < th`, keeps entry 0 and every entry with `|s i| >= th` unchanged,
returns the count of retained entries, and the pass-1 weight computed from
that count equals `1 / max 1 count`. -/
theorem C3_hard_threshold (len : ℕ) (s : ℕ → ℝ) (th : ℝ) (hlen : 0 < len) :
    (∀ i, 0 < i → |s i| < th → (hard_threshold len s th).1 i = 0)
    ∧ (hard_threshold len s th).1 0 = s 0
    ∧ (∀ i, ¬ |s i| < th → (hard_threshold len s th).1 i = s i)
    ∧ (hard_threshold len s th).2
        = ((Finset.range len).filter fun i => i = 0 ∨ ¬ |s i| < th).card
    ∧ step1Weight (hard_threshold len s th).2
        = 1 / (max 1 (hard_threshold len s th).2 : ℕ) := by
  refine ⟨?_, ?_, ?_, rfl, ?_⟩
  · intro i hi hlt
    simp only [hard_threshold]
    rw [if_neg (by omega), if_pos hlt]
  · simp [hard_threshold]
  · intro i hge
    simp only [hard_threshold]
    rcases eq_or_ne i 0 with h | h
    · rw [if_pos h]
    · rw [if_neg h, if_neg hge]
  · have hmem : 0 ∈ (Finset.range len).filter fun i => i = 0 ∨ ¬ |s i| < th := by
      simp [Finset.mem_filter, Finset.mem_range, hlen]
    have hpos : 0 < (hard_threshold len s th).2 := by
      simp only [hard_threshold]
      exact Finset.card_pos.mpr ⟨0, hmem⟩
    rw [step1Weight, if_pos hpos]
    have hmax : max 1 (hard_threshold len s th).2 = (hard_threshold len s th).2 :=
      max_eq_right hpos
    rw [hmax]

/-- Witness for C3 on a singleton stack. -/
theorem C3_hard_threshold_witness :
    ((∀ i, 0 < i → |(fun _ => (3 : ℝ)) i| < 1 → (hard_threshold 1 (fun _ => (3 : ℝ)) 1).1 i = 0)
    ∧ (hard_threshold 1 (fun _ => (3 : ℝ)) 1).1 0 = (fun _ => (3 : ℝ)) 0
    ∧ (∀ i, ¬ |(fun _ => (3 : ℝ)) i| < 1 → (hard_threshold 1 (fun _ => (3 : ℝ)) 1).1 i
        = (fun _ => (3 : ℝ)) i)
    ∧ (hard_threshold 1 (fun _ => (3 : ℝ)) 1).2
        = ((Finset.range 1).filter fun i => i = 0 ∨ ¬ |(fun _ => (3 : ℝ)) i| < 1).card
    ∧ step1Weight (hard_threshold 1 (fun _ => (3 : ℝ)) 1).2
        = 1 / (max 1 (hard_threshold 1 (fun _ => (3 : ℝ)) 1).2 : ℕ)) :=
  C3_hard_threshold 1 (fun _ => (3 : ℝ)) 1 (by norm_num)

/-- C4: `wiener_filter` multiplies each coefficient at `i > 0` by the gain
computed from the guide, leaves index 0 unchanged (gain 1, contributing 1 to
the gain-square sum), and returns `1/Σg²`, or `1.0` when the sum is not
positive; with a nonempty stack the sum is at least 1, so the weight is
always `1/Σg²`. -/
theorem C4_wiener_filter (len : ℕ) (noisy guide : ℕ → ℝ) (sigma : ℝ) (hlen : 0 < len) :
    (∀ i, 0 < i → (wiener_filter len noisy guide sigma).1 i
        = noisy i * (guide i * guide i / (guide i * guide i + sigma * sigma + 1e-5)))
    ∧ (wiener_filter len noisy guide sigma).1 0 = noisy 0
    ∧ wienerSum len guide sigma
        = 1 + ∑ i ∈ Finset.Ioo 0 len, wienerCoef (guide i) sigma * wienerCoef (guide i) sigma
    ∧ (wiener_filter len noisy guide sigma).2
        = (if 0 < wienerSum len guide sigma then 1 / wienerSum len guide sigma else 1.0)
    ∧ (wiener_filter len noisy guide sigma).2 = 1 / wienerSum len guide sigma := by
  have hsum1 : (1 : ℝ) ≤ wienerSum len guide sigma := by
    rw [wienerSum]
    have hins : Finset.range len = insert 0 (Finset.Ioo 0 len) := by
      ext i
      simp [Finset.mem_range, Finset.mem_insert, Finset.mem_Ioo]
      omega
    rw [hins, Finset.sum_insert (by simp)]
    have : ∀ i ∈ Finset.Ioo 0 len,
        (0 : ℝ) ≤ (if i = 0 then 1 else wienerCoef (guide i) sigma * wienerCoef (guide i) sigma) := by
      intro i hi
      rcases eq_or_ne i 0 with h | h
      · simp [h]
      · rw [if_neg h]
        exact mul_self_nonneg _
    have hnn := Finset.sum_nonneg this
    rw [if_pos rfl]
    linarith
  refine ⟨?_, ?_, ?_, rfl, ?_⟩
  · intro i hi
    simp only [wiener_filter, wienerCoef]
    rw [if_neg (by omega)]
  · simp [wiener_filter]
  · rw [wienerSum]
    have hins : Finset.range len = insert 0 (Finset.Ioo 0 len) := by
      ext i
      simp [Finset.mem_range, Finset.mem_insert, Finset.mem_Ioo]
      omega
    rw [hins, Finset.sum_insert (by simp), if_pos rfl]
    congr 1
    apply Finset.sum_congr rfl
    intro i hi
    rw [if_neg (by simp at hi; omega)]
  · simp only [wiener_filter]
    rw [if_pos (by linarith)]

/-- Witness for C4 on a singleton stack. -/
theorem C4_wiener_filter_witness :
    ((∀ i, 0 < i → (wiener_filter 1 (fun _ => (2 : ℝ)) (fun _ => (3 : ℝ)) 1).1 i
        = (fun _ => (2 : ℝ)) i * ((fun _ => (3 : ℝ)) i * (fun _ => (3 : ℝ)) i
            / ((fun _ => (3 : ℝ)) i * (fun _ => (3 : ℝ)) i + 1 * 1 + 1e-5)))
    ∧ (wiener_filter 1 (fun _ => (2 : ℝ)) (fun _ => (3 : ℝ)) 1).1 0 = (fun _ => (2 : ℝ)) 0
    ∧ wienerSum 1 (fun _ => (3 : ℝ)) 1
        = 1 + ∑ i ∈ Finset.Ioo 0 1,
            wienerCoef ((fun _ => (3 : ℝ)) i) 1 * wienerCoef ((fun _ => (3 : ℝ)) i) 1
    ∧ (wiener_filter 1 (fun _ => (2 : ℝ)) (fun _ => (3 : ℝ)) 1).2
        = (if 0 < wienerSum 1 (fun _ => (3 : ℝ)) 1 then 1 / wienerSum 1 (fun _ => (3 : ℝ)) 1
            else 1.0)
    ∧ (wiener_filter 1 (fun _ => (2 : ℝ)) (fun _ => (3 : ℝ)) 1).2
        = 1 / wienerSum 1 (fun _ => (3 : ℝ)) 1) :=
  C4_wiener_filter 1 (fun _ => (2 : ℝ)) (fun _ => (3 : ℝ)) 1 (by norm_num)

/-- C10: with a nonempty stack the hard-threshold count is at least 1 and the
Wiener gain-square sum is at least 1, so both fallback branches are
unreachable and each group weight lies in `(0, 1]`. -/
theorem C10_weights_in_unit_interval (len : ℕ) (s noisy guide : ℕ → ℝ) (th sigma : ℝ)
    (hlen : 0 < len) :
    (1 ≤ (hard_threshold len s th).2)
    ∧ (0 < step1Weight (hard_threshold len s th).2
        ∧ step1Weight (hard_threshold len s th).2 ≤ 1)
    ∧ (1 ≤ wienerSum len guide sigma)
    ∧ (0 < (wiener_filter len noisy guide sigma).2
        ∧ (wiener_filter len noisy guide sigma).2 ≤ 1) := by
  have hcount : 1 ≤ (hard_threshold len s th).2 := by
    simp only [hard_threshold]
    apply Finset.card_pos.mpr
    exact ⟨0, by simp [Finset.mem_filter, Finset.mem_range, hlen]⟩
  have hsum1 : (1 : ℝ) ≤ wienerSum len guide sigma := by
    rw [wienerSum]
    have hins : Finset.range len = insert 0 (Finset.Ioo 0 len) := by
      ext i
      simp [Finset.mem_range, Finset.mem_insert, Finset.mem_Ioo]
      omega
    rw [hins, Finset.sum_insert (by simp), if_pos rfl]
    have : ∀ i ∈ Finset.Ioo 0 len,
        (0 : ℝ) ≤ (if i = 0 then 1 else wienerCoef (guide i) sigma * wienerCoef (guide i) sigma) := by
      intro i hi
      rcases eq_or_ne i 0 with h | h
      · simp [h]
      · rw [if_neg h]
        exact mul_self_nonneg _
    have hnn := Finset.sum_nonneg this
    linarith
  refine ⟨hcount, ⟨?_, ?_⟩, hsum1, ?_, ?_⟩
  · rw [step1Weight, if_pos (by omega)]
    positivity
  · rw [step1Weight, if_pos (by omega)]
    rw [div_le_one (by exact_mod_cast hcount)]
    exact_mod_cast hcount
  · simp only [wiener_filter]
    rw [if_pos (by linarith)]
    positivity
  · simp only [wiener_filter]
    rw [if_pos (by linarith)]
    rw [div_le_one (by linarith)]
    linarith

/-- Witness for C10 on singleton stacks. -/
theorem C10_weights_in_unit_interval_witness :
    ((1 ≤ (hard_threshold 1 (fun _ => (0 : ℝ)) 1).2)
    ∧ (0 < step1Weight (hard_threshold 1 (fun _ => (0 : ℝ)) 1).2
        ∧ step1Weight (hard_threshold 1 (fun _ => (0 : ℝ)) 1).2 ≤ 1)
    ∧ (1 ≤ wienerSum 1 (fun _ => (0 : ℝ)) 2)
    ∧ (0 < (wiener_filter 1 (fun _ => (0 : ℝ)) (fun _ => (0 : ℝ)) 2).2
        ∧ (wiener_filter 1 (fun _ => (0 : ℝ)) (fun _ => (0 : ℝ)) 2).2 ≤ 1)) :=
  C10_weights_in_unit_interval 1 (fun _ => (0 : ℝ)) (fun _ => (0 : ℝ)) (fun _ => (0 : ℝ)) 1 2
    (by norm_num)

theorem ssdRow_nonneg (img : ℕ → ℝ) (w x y : ℕ) (ref : ℕ → ℝ) (dy : ℕ) :
    0 ≤ ssdRow img w x y ref dy := by
  apply Finset.sum_nonneg
  intro dx _
  exact mul_self_nonneg _

/-- Nonnegativity invariant for the early-exit SSD state. -/
def ssdNN : ℝ ⊕ ℝ → Prop
  | Sum.inl v => 0 ≤ v
  | Sum.inr d => 0 ≤ d

theorem compute_ssd_flat_nonneg (img : ℕ → ℝ) (w x y : ℕ) (ref : ℕ → ℝ) (t : ℝ) :
    0 ≤ compute_ssd_flat img w x y ref t := by
  have key : ∀ l : List ℕ, ∀ st : ℝ ⊕ ℝ, ssdNN st →
      ssdNN (l.foldl (fun st dy =>
        match st with
        | Sum.inl v => Sum.inl v
        | Sum.inr dist =>
            if dist + ssdRow img w x y ref dy > t then
              Sum.inl (dist + ssdRow img w x y ref dy)
            else Sum.inr (dist + ssdRow img w x y ref dy)) st) := by
    intro l
    induction l with
    | nil => intro st hst; exact hst
    | cons a tl ih =>
        intro st hst
        simp only [List.foldl]
        apply ih
        rcases st with v | d
        · exact hst
        · have hd : (0 : ℝ) ≤ d := hst
          have hsum : 0 ≤ d + ssdRow img w x y ref a :=
            add_nonneg hd (ssdRow_nonneg img w x y ref a)
          show ssdNN (if d + ssdRow img w x y ref a > t then
              Sum.inl (d + ssdRow img w x y ref a)
            else Sum.inr (d + ssdRow img w x y ref a))
          by_cases hc : d + ssdRow img w x y ref a > t
          · rw [if_pos hc]; exact hsum
          · rw [if_neg hc]; exact hsum
  have h := key (List.range 8) (Sum.inr 0) (by rw [ssdNN])
  rw [compute_ssd_flat]
  rcases hfold : (List.range 8).foldl _ (Sum.inr (0 : ℝ)) with v | d
  · rw [hfold] at h
    exact h
  · rw [hfold] at h
    have hd : (0 : ℝ) ≤ d := h
    positivity

/-- Each search-loop step either keeps the accumulator or appends exactly one
candidate with nonnegative distance. -/
theorem bmStep_eq_or (ch0 ch1 ch2 : ℕ → ℝ) (w rx ry : ℕ) (threshold : ℝ)
    (refr refg refb : ℕ → ℝ) (acc : List BmMatch) (c : ℕ × ℕ) :
    bmStep ch0 ch1 ch2 w rx ry threshold refr refg refb acc c = acc
    ∨ ∃ m : BmMatch, 0 ≤ m.dist
        ∧ bmStep ch0 ch1 ch2 w rx ry threshold refr refg refb acc c = acc ++ [m] := by
  simp only [bmStep]
  split_ifs with h1 h2 h3 h4 h5
  · exact Or.inl rfl
  · exact Or.inl rfl
  · exact Or.inl rfl
  · refine Or.inr ⟨_, ?_, rfl⟩
    have n1 := compute_ssd_flat_nonneg ch0 w c.1 c.2 refr threshold
    have n2 := compute_ssd_flat_nonneg ch1 w c.1 c.2 refg
      (threshold - compute_ssd_flat ch0 w c.1 c.2 refr threshold)
    have n3 := compute_ssd_flat_nonneg ch2 w c.1 c.2 refb
      (threshold - (compute_ssd_flat ch0 w c.1 c.2 refr threshold
        + compute_ssd_flat ch1 w c.1 c.2 refg
            (threshold - compute_ssd_flat ch0 w c.1 c.2 refr threshold)))
    dsimp only
    linarith
  · exact Or.inl rfl
  · exact Or.inl rfl

/-- Invariants of the candidate fold: the accumulator only grows, keeps its
members, and keeps distances nonnegative. -/
theorem bmFold_invariants (ch0 ch1 ch2 : ℕ → ℝ) (w rx ry : ℕ) (threshold : ℝ)
    (refr refg refb : ℕ → ℝ) :
    ∀ coords : List (ℕ × ℕ), ∀ acc : List BmMatch,
      (acc.length
          ≤ (coords.foldl (bmStep ch0 ch1 ch2 w rx ry threshold refr refg refb) acc).length)
      ∧ (∀ m ∈ acc, m ∈ coords.foldl (bmStep ch0 ch1 ch2 w rx ry threshold refr refg refb) acc)
      ∧ ((∀ m ∈ acc, 0 ≤ m.dist) →
          ∀ m ∈ coords.foldl (bmStep ch0 ch1 ch2 w rx ry threshold refr refg refb) acc,
            0 ≤ m.dist) := by
  intro coords
  induction coords with
  | nil => intro acc; exact ⟨le_refl _, fun m hm => hm, fun h m hm => h m hm⟩
  | cons a tl ih =>
      intro acc
      rcases bmStep_eq_or ch0 ch1 ch2 w rx ry threshold refr refg refb acc a with h | ⟨m0, hm0, h⟩
      · simp only [List.foldl, h]
        exact ih acc
      · simp only [List.foldl, h]
        rcases ih (acc ++ [m0]) with ⟨hlen, hmem, hnn⟩
        refine ⟨?_, ?_, ?_⟩
        · calc acc.length ≤ (acc ++ [m0]).length := by simp
            _ ≤ _ := hlen
        · intro m hm
          exact hmem m (by simp [hm])
        · intro hacc m hm
          apply hnn _ m hm
          intro m2 hm2
          rcases List.mem_append.mp hm2 with h2 | h2
          · exact hacc m2 h2
          · simp at h2; rw [h2]; exact hm0

theorem prevPow2Go_go (x p : ℕ) (h : 0 < p ∧ p * 2 ≤ x) :
    prevPow2Go x p = prevPow2Go x (p * 2) := by
  rw [prevPow2Go, dif_pos h]

theorem prevPow2Go_stop (x p : ℕ) (h : ¬(0 < p ∧ p * 2 ≤ x)) :
    prevPow2Go x p = p := by
  rw [prevPow2Go, dif_neg h]

/-- Value table of `prev_power_of_two` on `1..16`. -/
theorem prev_power_of_two_val (x : ℕ) (h1 : 1 ≤ x) (h16 : x ≤ 16) :
    prev_power_of_two x
      = if x < 2 then 1 else if x < 4 then 2 else if x < 8 then 4
          else if x < 16 then 8 else 16 := by
  interval_cases x <;> simp [prev_power_of_two, prevPow2Go_go, prevPow2Go_stop]

theorem sortedByDist_orderedInsert (r : BmMatch → BmMatch → Prop) [DecidableRel r]
    (hr2 : ∀ a b, ¬ r a b → b.dist ≤ a.dist) (hr1 : ∀ a b, r a b → a.dist ≤ b.dist)
    (a : BmMatch) (l : List BmMatch) (hl : sortedByDist l) :
    sortedByDist (l.orderedInsert r a) := by
  induction l with
  | nil => simp [sortedByDist, List.orderedInsert]
  | cons b t ih =>
      rw [sortedByDist, List.orderedInsert]
      rcases List.sorted_cons.mp hl with ⟨hb, ht⟩
      by_cases hab : r a b
      · rw [if_pos hab]
        refine List.sorted_cons.mpr ⟨?_, hl⟩
        intro c hc
        rcases List.mem_cons.mp hc with h | h
        · rw [h]; exact hr1 a b hab
        · exact le_trans (hr1 a b hab) (hb c h)
      · rw [if_neg hab]
        refine List.sorted_cons.mpr ⟨?_, ih ht⟩
        intro c hc
        rcases (List.mem_orderedInsert r).mp hc with h | h
        · rw [h]; exact hr2 a b hab
        · exact hb c h

theorem sortedByDist_insertionSort (r : BmMatch → BmMatch → Prop) [DecidableRel r]
    (hr2 : ∀ a b, ¬ r a b → b.dist ≤ a.dist) (hr1 : ∀ a b, r a b → a.dist ≤ b.dist)
    (l : List BmMatch) : sortedByDist (List.insertionSort r l) := by
  induction l with
  | nil => simp [sortedByDist, List.insertionSort]
  | cons a t ih =>
      rw [List.insertionSort]
      exact sortedByDist_orderedInsert r hr2 hr1 a _ ih

/-- A stable model of `sort_unstable_by` (insertion sort on `<=`). -/
def sorterLe : List BmMatch → List BmMatch :=
  List.insertionSort fun a b => a.dist ≤ b.dist

/-- An equally admissible model of `sort_unstable_by` that puts later elements
first on ties (insertion sort on the strict order). -/
def sorterCE : List BmMatch → List BmMatch :=
  List.insertionSort fun a b => a.dist < b.dist

theorem SortSpec_sorterLe : SortSpec sorterLe :=
  fun l => ⟨List.perm_insertionSort _ l,
    sortedByDist_insertionSort _ (fun _ _ h => le_of_not_le h) (fun _ _ h => h) l⟩

theorem SortSpec_sorterCE : SortSpec sorterCE :=
  fun l => ⟨List.perm_insertionSort _ l,
    sortedByDist_insertionSort _ (fun _ _ h => le_of_not_lt h) (fun _ _ h => le_of_lt h) l⟩

/-- C2 (amended): the match set has size exactly
`prev_power_of_two (min 16 candidates)`, which is in 1, 2, 4, 8, 16 (never 0)
and is the largest power of two not exceeding `min 16 candidates`; the first
entry always has candidate distance 0, and it is the reference location
whenever no other candidate has distance 0. -/
theorem C2_match_set (sorter : List BmMatch → List BmMatch) (hs : SortSpec sorter)
    (ch0 ch1 ch2 : ℕ → ℝ) (w h rx ry : ℕ) (is_step_1 : Bool) (params : Bm3dParams) :
    (block_matching_joint sorter ch0 ch1 ch2 w h rx ry is_step_1 params).length
        = prev_power_of_two (min 16
            (bmCandidates ch0 ch1 ch2 w h rx ry (bmThreshold is_step_1 params)).length)
    ∧ ((block_matching_joint sorter ch0 ch1 ch2 w h rx ry is_step_1 params).length = 1
        ∨ (block_matching_joint sorter ch0 ch1 ch2 w h rx ry is_step_1 params).length = 2
        ∨ (block_matching_joint sorter ch0 ch1 ch2 w h rx ry is_step_1 params).length = 4
        ∨ (block_matching_joint sorter ch0 ch1 ch2 w h rx ry is_step_1 params).length = 8
        ∨ (block_matching_joint sorter ch0 ch1 ch2 w h rx ry is_step_1 params).length = 16)
    ∧ (block_matching_joint sorter ch0 ch1 ch2 w h rx ry is_step_1 params).length
        ≤ min 16 (bmCandidates ch0 ch1 ch2 w h rx ry (bmThreshold is_step_1 params)).length
    ∧ min 16 (bmCandidates ch0 ch1 ch2 w h rx ry (bmThreshold is_step_1 params)).length
        < 2 * (block_matching_joint sorter ch0 ch1 ch2 w h rx ry is_step_1 params).length
    ∧ (∃ m ∈ bmCandidates ch0 ch1 ch2 w h rx ry (bmThreshold is_step_1 params),
        m.dist = 0
        ∧ (block_matching_joint sorter ch0 ch1 ch2 w h rx ry is_step_1 params).head?
            = some (m.x, m.y))
    ∧ ((∀ m ∈ bmCandidates ch0 ch1 ch2 w h rx ry (bmThreshold is_step_1 params),
          m.dist = 0 → m.x = rx ∧ m.y = ry) →
        (block_matching_joint sorter ch0 ch1 ch2 w h rx ry is_step_1 params).head?
          = some (rx, ry)) := by
  obtain ⟨hperm, hsort⟩ :=
    hs (bmCandidates ch0 ch1 ch2 w h rx ry (bmThreshold is_step_1 params))
  set cands := bmCandidates ch0 ch1 ch2 w h rx ry (bmThreshold is_step_1 params) with hcands
  have hinv := bmFold_invariants ch0 ch1 ch2 w rx ry (bmThreshold is_step_1 params)
    (extract_patch ch0 w rx ry) (extract_patch ch1 w rx ry) (extract_patch ch2 w rx ry)
    (searchCoords w h rx ry) [⟨0, rx, ry⟩]
  have hlen1 : 1 ≤ cands.length := by
    have := hinv.1
    simpa [hcands, bmCandidates] using this
  have href : (⟨0, rx, ry⟩ : BmMatch) ∈ cands := by
    have := hinv.2.1 ⟨0, rx, ry⟩ (List.mem_singleton.mpr rfl)
    simpa [hcands, bmCandidates] using this
  have hnn : ∀ m ∈ cands, 0 ≤ m.dist := by
    intro m hm
    have hinit : ∀ m2 ∈ ([⟨0, rx, ry⟩] : List BmMatch), 0 ≤ m2.dist := by
      intro m2 hm2
      obtain rfl := List.mem_singleton.mp hm2
      exact le_refl _
    have := hinv.2.2 hinit m
    apply this
    simpa [hcands, bmCandidates] using hm
  have hp2 : (prev_power_of_two (min 16 cands.length) = 1
        ∨ prev_power_of_two (min 16 cands.length) = 2
        ∨ prev_power_of_two (min 16 cands.length) = 4
        ∨ prev_power_of_two (min 16 cands.length) = 8
        ∨ prev_power_of_two (min 16 cands.length) = 16)
      ∧ prev_power_of_two (min 16 cands.length) ≤ min 16 cands.length
      ∧ min 16 cands.length < 2 * prev_power_of_two (min 16 cands.length) := by
    have hub : min 16 cands.length ≤ 16 := min_le_left _ _
    have hlb : 1 ≤ min 16 cands.length := by omega
    generalize min 16 cands.length = m at hub hlb ⊢
    interval_cases m <;>
      rw [prev_power_of_two_val _ (by norm_num) (by norm_num)] <;> norm_num
  have hlen_sorted : (sorter cands).length = cands.length := hperm.length_eq
  have hout_len :
      (block_matching_joint sorter ch0 ch1 ch2 w h rx ry is_step_1 params).length
        = prev_power_of_two (min 16 cands.length) := by
    rw [block_matching_joint, List.length_map, List.length_take, hlen_sorted, ← hcands]
    omega
  have hp2pos : 0 < prev_power_of_two (min 16 cands.length) := by
    rcases hp2.1 with h | h | h | h | h <;> omega
  have hne : sorter cands ≠ [] := by
    apply List.ne_nil_of_length_pos
    omega
  obtain ⟨hd, tl, heq⟩ := List.exists_cons_of_ne_nil hne
  have hhd_mem : hd ∈ cands := hperm.mem_iff.mp (by rw [heq]; exact List.mem_cons_self _ _)
  have hrefs : (⟨0, rx, ry⟩ : BmMatch) ∈ sorter cands := hperm.mem_iff.mpr href
  have hhd0 : hd.dist = 0 := by
    apply le_antisymm
    · rw [heq] at hsort hrefs
      rcases List.sorted_cons.mp hsort with ⟨hall, _⟩
      rcases List.mem_cons.mp hrefs with h2 | h2
      · rw [← h2]
      · exact hall _ h2
    · exact hnn hd hhd_mem
  have hhead :
      (block_matching_joint sorter ch0 ch1 ch2 w h rx ry is_step_1 params).head?
        = some (hd.x, hd.y) := by
    rw [block_matching_joint, ← hcands, heq]
    obtain ⟨p, hp⟩ : ∃ p, prev_power_of_two (min 16 cands.length) = p + 1 :=
      ⟨prev_power_of_two (min 16 cands.length) - 1, by omega⟩
    rw [hp, List.take_succ_cons]
    rfl
  refine ⟨hout_len, ?_, ?_, ?_, ⟨hd, hhd_mem, hhd0, hhead⟩, ?_⟩
  · rw [hout_len]; exact hp2.1
  · rw [hout_len]; exact hp2.2.1
  · rw [hout_len]; exact hp2.2.2
  · intro hu
    rcases hu hd hhd_mem hhd0 with ⟨hx, hy⟩
    rw [hhead, hx, hy]

/-- Witness for C2 with the stable sorter on an all-zero 8×8 image. -/
theorem C2_match_set_witness :
    (block_matching_joint sorterLe (fun _ => (0 : ℝ)) (fun _ => 0) (fun _ => 0)
        8 8 0 0 true (Bm3dParams.from_intensity 0.5)).length
        = prev_power_of_two (min 16
            (bmCandidates (fun _ => (0 : ℝ)) (fun _ => 0) (fun _ => 0) 8 8 0 0
              (bmThreshold true (Bm3dParams.from_intensity 0.5))).length)
    ∧ ((block_matching_joint sorterLe (fun _ => (0 : ℝ)) (fun _ => 0) (fun _ => 0)
          8 8 0 0 true (Bm3dParams.from_intensity 0.5)).length = 1
        ∨ (block_matching_joint sorterLe (fun _ => (0 : ℝ)) (fun _ => 0) (fun _ => 0)
            8 8 0 0 true (Bm3dParams.from_intensity 0.5)).length = 2
        ∨ (block_matching_joint sorterLe (fun _ => (0 : ℝ)) (fun _ => 0) (fun _ => 0)
            8 8 0 0 true (Bm3dParams.from_intensity 0.5)).length = 4
        ∨ (block_matching_joint sorterLe (fun _ => (0 : ℝ)) (fun _ => 0) (fun _ => 0)
            8 8 0 0 true (Bm3dParams.from_intensity 0.5)).length = 8
        ∨ (block_matching_joint sorterLe (fun _ => (0 : ℝ)) (fun _ => 0) (fun _ => 0)
            8 8 0 0 true (Bm3dParams.from_intensity 0.5)).length = 16)
    ∧ (block_matching_joint sorterLe (fun _ => (0 : ℝ)) (fun _ => 0) (fun _ => 0)
          8 8 0 0 true (Bm3dParams.from_intensity 0.5)).length
        ≤ min 16 (bmCandidates (fun _ => (0 : ℝ)) (fun _ => 0) (fun _ => 0) 8 8 0 0
            (bmThreshold true (Bm3dParams.from_intensity 0.5))).length
    ∧ min 16 (bmCandidates (fun _ => (0 : ℝ)) (fun _ => 0) (fun _ => 0) 8 8 0 0
          (bmThreshold true (Bm3dParams.from_intensity 0.5))).length
        < 2 * (block_matching_joint sorterLe (fun _ => (0 : ℝ)) (fun _ => 0) (fun _ => 0)
            8 8 0 0 true (Bm3dParams.from_intensity 0.5)).length
    ∧ (∃ m ∈ bmCandidates (fun _ => (0 : ℝ)) (fun _ => 0) (fun _ => 0) 8 8 0 0
          (bmThreshold true (Bm3dParams.from_intensity 0.5)),
        m.dist = 0
        ∧ (block_matching_joint sorterLe (fun _ => (0 : ℝ)) (fun _ => 0) (fun _ => 0)
            8 8 0 0 true (Bm3dParams.from_intensity 0.5)).head? = some (m.x, m.y))
    ∧ ((∀ m ∈ bmCandidates (fun _ => (0 : ℝ)) (fun _ => 0) (fun _ => 0) 8 8 0 0
          (bmThreshold true (Bm3dParams.from_intensity 0.5)),
          m.dist = 0 → m.x = 0 ∧ m.y = 0) →
        (block_matching_joint sorterLe (fun _ => (0 : ℝ)) (fun _ => 0) (fun _ => 0)
          8 8 0 0 true (Bm3dParams.from_intensity 0.5)).head? = some (0, 0)) :=
  C2_match_set sorterLe SortSpec_sorterLe (fun _ => (0 : ℝ)) (fun _ => 0) (fun _ => 0)
    8 8 0 0 true (Bm3dParams.from_intensity 0.5)

/-- On an all-zero channel every SSD against an all-zero reference patch is 0
(no early exit fires for a nonnegative budget). -/
theorem ssd_const_zero (w x y rx ry : ℕ) (t : ℝ) (ht : 0 ≤ t) :
    compute_ssd_flat (fun _ => (0 : ℝ)) w x y (extract_patch (fun _ => (0 : ℝ)) w rx ry) t
      = 0 := by
  have hrow : ∀ dy,
      ssdRow (fun _ => (0 : ℝ)) w x y (extract_patch (fun _ => (0 : ℝ)) w rx ry) dy = 0 := by
    intro dy
    simp [ssdRow, extract_patch]
  have key : ∀ l : List ℕ, ∀ d : ℝ, d = 0 →
      (l.foldl (fun st dy =>
        match st with
        | Sum.inl v => Sum.inl v
        | Sum.inr dist =>
            if dist + ssdRow (fun _ => (0 : ℝ)) w x y
                (extract_patch (fun _ => (0 : ℝ)) w rx ry) dy > t then
              Sum.inl (dist + ssdRow (fun _ => (0 : ℝ)) w x y
                (extract_patch (fun _ => (0 : ℝ)) w rx ry) dy)
            else Sum.inr (dist + ssdRow (fun _ => (0 : ℝ)) w x y
                (extract_patch (fun _ => (0 : ℝ)) w rx ry) dy))
        (Sum.inr d)) = Sum.inr d := by
    intro l
    induction l with
    | nil => intro d hd; rfl
    | cons a tl ih =>
        intro d hd
        have hcond : ¬(d > t) := by rw [hd]; simpa using ht
        have hsum : d + ssdRow (fun _ => (0 : ℝ)) w x y
            (extract_patch (fun _ => (0 : ℝ)) w rx ry) a = d := by
          rw [hd, hrow a]; ring
        simp only [List.foldl, hsum]
        rw [if_neg hcond]
        exact ih d hd
  rw [compute_ssd_flat, key (List.range 8) 0 rfl]
  norm_num

/-- Concrete candidate list on the all-zero 9×8 image at reference (0,0):
the seeded reference plus the distance-0 candidate at (1,0). -/
theorem cands_eval_zero9x8 :
    bmCandidates (fun _ => (0 : ℝ)) (fun _ => 0) (fun _ => 0) 9 8 0 0 13000
      = [⟨0, 0, 0⟩, ⟨0, 1, 0⟩] := by
  have hssd : ∀ x y : ℕ, ∀ t : ℝ, 0 ≤ t →
      compute_ssd_flat (fun _ => (0 : ℝ)) 9 x y (extract_patch (fun _ => (0 : ℝ)) 9 0 0) t = 0 :=
    fun x y t ht => ssd_const_zero 9 x y 0 0 t ht
  rw [bmCandidates, show searchCoords 9 8 0 0 = [(0, 0), (1, 0)] from rfl]
  simp only [List.foldl]
  rw [show bmStep (fun _ => (0 : ℝ)) (fun _ => 0) (fun _ => 0) 9 0 0 13000
      (extract_patch (fun _ => (0 : ℝ)) 9 0 0) (extract_patch (fun _ => (0 : ℝ)) 9 0 0)
      (extract_patch (fun _ => (0 : ℝ)) 9 0 0) [⟨0, 0, 0⟩] (0, 0) = [⟨0, 0, 0⟩] from by
    rw [bmStep, if_pos ⟨rfl, rfl⟩]]
  rw [bmStep, if_neg (by norm_num)]
  simp only
  rw [hssd 1 0 13000 (by norm_num)]
  rw [if_neg (by norm_num), hssd 1 0 (13000 - 0) (by norm_num)]
  rw [if_neg (by norm_num), hssd 1 0 (13000 - (0 + 0)) (by norm_num)]
  rw [if_pos (by norm_num), if_pos (by norm_num)]
  norm_num

/-- C2 (counterexample): on a constant 9×8 image, the candidate at (1,0) ties
the reference at distance 0, and the admissible sorter `sorterCE` returns it
first, so the first entry of the match set is not the reference location. -/
theorem C2_counterexample :
    SortSpec sorterCE
    ∧ block_matching_joint sorterCE (fun _ => (0 : ℝ)) (fun _ => 0) (fun _ => 0) 9 8 0 0 true
        (Bm3dParams.from_intensity 0.5) = [(1, 0), (0, 0)]
    ∧ (block_matching_joint sorterCE (fun _ => (0 : ℝ)) (fun _ => 0) (fun _ => 0) 9 8 0 0 true
        (Bm3dParams.from_intensity 0.5)).head? ≠ some (0, 0) := by
  have hth : bmThreshold true (Bm3dParams.from_intensity 0.5) = 13000 := by
    rw [bmThreshold, if_pos rfl]
    norm_num [Bm3dParams.from_intensity, rclamp, max_def, min_def]
  have heval : block_matching_joint sorterCE (fun _ => (0 : ℝ)) (fun _ => 0) (fun _ => 0)
      9 8 0 0 true (Bm3dParams.from_intensity 0.5) = [(1, 0), (0, 0)] := by
    rw [block_matching_joint, hth, cands_eval_zero9x8]
    rw [show sorterCE [⟨0, 0, 0⟩, ⟨0, 1, 0⟩] = [⟨0, 1, 0⟩, ⟨0, 0, 0⟩] from by
      rw [sorterCE, List.insertionSort, List.insertionSort, List.insertionSort,
        List.orderedInsert, List.orderedInsert]
      rw [if_neg (by norm_num)]
      rw [List.orderedInsert]]
    rw [show (prev_power_of_two (min 16 ([⟨(0 : ℝ), 0, 0⟩, ⟨0, 1, 0⟩] : List BmMatch).length))
        = 2 from by
      simp [prev_power_of_two, prevPow2Go_go, prevPow2Go_stop]]
    rfl
  refine ⟨SortSpec_sorterCE, heval, ?_⟩
  rw [heval]
  simp

/-- Modelled from the spec: the naive per-channel distance is the full
64-pixel sum of squared differences divided by `BLOCK_AREA = 64`, with no
early exit. -/
def naive_ssd (img : ℕ → ℝ) (w x y : ℕ) (ref : ℕ → ℝ) : ℝ :=
  (∑ dy ∈ Finset.range 8, ssdRow img w x y ref dy) / 64

/-- The candidate test exactly as the search loop performs it (early-exiting
SSDs with progressively reduced budgets): `some d` when accepted with
distance `d`. -/
def codeCandidate (ch0 ch1 ch2 : ℕ → ℝ) (w rx ry x y : ℕ) (threshold : ℝ) : Option ℝ :=
  let d_r := compute_ssd_flat ch0 w x y (extract_patch ch0 w rx ry) threshold
  if d_r > threshold then none
  else
    let d_g := compute_ssd_flat ch1 w x y (extract_patch ch1 w rx ry) (threshold - d_r)
    if d_r + d_g > threshold then none
    else
      let d_b := compute_ssd_flat ch2 w x y (extract_patch ch2 w rx ry)
        (threshold - (d_r + d_g))
      if d_r + d_g + d_b < threshold then some (d_r + d_g + d_b) else none

/-- Modelled from the spec: the same cumulative tests with the naive
full-SSD-over-64 distances. -/
def naiveCandidate (ch0 ch1 ch2 : ℕ → ℝ) (w rx ry x y : ℕ) (threshold : ℝ) : Option ℝ :=
  let d_r := naive_ssd ch0 w x y (extract_patch ch0 w rx ry)
  if d_r > threshold then none
  else
    let d_g := naive_ssd ch1 w x y (extract_patch ch1 w rx ry)
    if d_r + d_g > threshold then none
    else
      let d_b := naive_ssd ch2 w x y (extract_patch ch2 w rx ry)
      if d_r + d_g + d_b < threshold then some (d_r + d_g + d_b) else none

/-- The search-loop step is the candidate test followed by the capped append;
this ties `codeCandidate` to the fold used by `block_matching_joint`. -/
theorem bmStep_codeCandidate (ch0 ch1 ch2 : ℕ → ℝ) (w rx ry : ℕ) (threshold : ℝ)
    (acc : List BmMatch) (c : ℕ × ℕ) (hc : ¬(c.1 = rx ∧ c.2 = ry)) :
    bmStep ch0 ch1 ch2 w rx ry threshold
        (extract_patch ch0 w rx ry) (extract_patch ch1 w rx ry) (extract_patch ch2 w rx ry)
        acc c
      = match codeCandidate ch0 ch1 ch2 w rx ry c.1 c.2 threshold with
        | none => acc
        | some d => if acc.length < 1024 then acc ++ [⟨d, c.1, c.2⟩] else acc := by
  simp only [bmStep, codeCandidate]
  rw [if_neg hc]
  split_ifs <;> rfl

/-- Test image for the early-exit divergence: columns 0–7 hold 0, columns
8–15 hold 20 (a 16-wide, arbitrarily tall constant-rows pattern). -/
def img20 : ℕ → ℝ := fun i => if i % 16 < 8 then 0 else 20

/-- Each SSD row between the patch at (8,0) and the reference patch at (0,0)
of `img20` contributes `8 * 20^2 = 3200`. -/
theorem img20_row (dy : ℕ) :
    ssdRow img20 16 8 0 (extract_patch img20 16 0 0) dy = 3200 := by
  rw [ssdRow]
  have hterm : ∀ dx ∈ Finset.range 8,
      (img20 ((0 + dy) * 16 + 8 + dx) - extract_patch img20 16 0 0 (dy * 8 + dx))
        * (img20 ((0 + dy) * 16 + 8 + dx) - extract_patch img20 16 0 0 (dy * 8 + dx))
      = 400 := by
    intro dx hdx
    have hdx8 := Finset.mem_range.mp hdx
    have h1 : img20 ((0 + dy) * 16 + 8 + dx) = 20 := by
      rw [img20]
      beta_reduce
      rw [if_neg (by omega)]
    have h2 : extract_patch img20 16 0 0 (dy * 8 + dx) = 0 := by
      rw [extract_patch]
      beta_reduce
      have e1 : (dy * 8 + dx) / 8 = dy := by omega
      have e2 : (dy * 8 + dx) % 8 = dx := by omega
      rw [e1, e2, img20]
      beta_reduce
      rw [if_pos (by omega)]
    rw [h1, h2]
    norm_num
  rw [Finset.sum_congr rfl hterm, Finset.sum_const, Finset.card_range, nsmul_eq_mul]
  norm_num

/-- Pass-through: once the SSD fold has early-exited, it stays exited. -/
theorem ssd_foldl_inl (img : ℕ → ℝ) (w x y : ℕ) (ref : ℕ → ℝ) (t : ℝ) :
    ∀ l : List ℕ, ∀ v : ℝ,
      (l.foldl (fun st dy =>
        match st with
        | Sum.inl v => Sum.inl v
        | Sum.inr dist =>
            if dist + ssdRow img w x y ref dy > t then
              Sum.inl (dist + ssdRow img w x y ref dy)
            else Sum.inr (dist + ssdRow img w x y ref dy)) (Sum.inl v))
        = Sum.inl v := by
  intro l
  induction l with
  | nil => intro v; rfl
  | cons a tl ih => intro v; exact ih v

/-- On `img20` the early exit fires in the first row: the code reports the raw
(undivided) partial sum 3200 as the distance. -/
theorem img20_ssd_early :
    compute_ssd_flat img20 16 8 0 (extract_patch img20 16 0 0) 3020 = 3200 := by
  rw [compute_ssd_flat, show (List.range 8) = 0 :: [1, 2, 3, 4, 5, 6, 7] from rfl,
    List.foldl_cons]
  dsimp only
  rw [img20_row 0]
  rw [if_pos (by norm_num : (0 : ℝ) + 3200 > 3020)]
  rw [ssd_foldl_inl img20 16 8 0 (extract_patch img20 16 0 0) 3020 [1, 2, 3, 4, 5, 6, 7]]
  norm_num

/-- The naive distance on the same data is `8 * 3200 / 64 = 400`. -/
theorem img20_naive_ssd :
    naive_ssd img20 16 8 0 (extract_patch img20 16 0 0) = 400 := by
  rw [naive_ssd]
  rw [Finset.sum_congr rfl fun dy _ => img20_row dy, Finset.sum_const, Finset.card_range,
    nsmul_eq_mul]
  norm_num

/-- C8: the early-exiting matcher and the naive matcher disagree. At the
minimum-intensity threshold 3020, candidate (8,0) of `img20` has true
per-channel distance 400 (accepted by the naive tests with total 1200), but
the early exit compares the raw partial sum 3200 against the threshold and
rejects it. -/
theorem C8_early_exit_divergence :
    bmThreshold true (Bm3dParams.from_intensity 0) = 3020
    ∧ codeCandidate img20 img20 img20 16 0 0 8 0 3020 = none
    ∧ naiveCandidate img20 img20 img20 16 0 0 8 0 3020 = some 1200 := by
  refine ⟨?_, ?_, ?_⟩
  · rw [bmThreshold, if_pos rfl]
    norm_num [Bm3dParams.from_intensity, rclamp, max_def, min_def]
  · rw [codeCandidate]
    simp only
    rw [img20_ssd_early]
    rw [if_pos (by norm_num : (3200 : ℝ) > 3020)]
  · rw [naiveCandidate]
    simp only
    rw [img20_naive_ssd]
    rw [if_neg (by norm_num : ¬((400 : ℝ) > 3020))]
    rw [if_neg (by norm_num : ¬((400 : ℝ) + 400 > 3020))]
    rw [if_pos (by norm_num : (400 : ℝ) + 400 + 400 < 3020)]
    norm_num

/-- `(0..n).step_by(STRIDE)` with `STRIDE = 6`, as a list. -/
def stepRange (n : ℕ) : List ℕ := (List.range ((n + 5) / 6)).map (6 * ·)

/-- The reference-location grid of `run_bm3d_step_joint`: y outer, x inner,
over the exclusive ranges `0..h-8` and `0..w-8` with stride 6. -/
def refPatches (w h : ℕ) : List (ℕ × ℕ) :=
  (stepRange (h - 8)).flatMap fun y => (stepRange (w - 8)).map fun x => (x, y)

/-- `total_work_units` as precomputed in `denoise_image`:
`patches_x * patches_y * 2` with `patches = (dim - 8)/6 + 1` (saturating). -/
def total_work_units (w h : ℕ) : ℕ :=
  ((w - 8) / 6 + 1) * ((h - 8) / 6 + 1) * 2

/-- `build_3d_group`: the flat stack of the group patches. -/
def build_3d_group (img : ℕ → ℝ) (w : ℕ) (locs : List (ℕ × ℕ)) : ℕ → ℝ :=
  fun idx =>
    extract_patch img w (locs.getD (idx / 64) (0, 0)).1 (locs.getD (idx / 64) (0, 0)).2
      (idx % 64)

/-- `(value * FIXED_POINT_SCALE) as i64`: truncation toward zero. -/
def toFixed (v : ℝ) : ℤ :=
  if 0 ≤ v * FIXED_POINT_SCALE then ⌊v * FIXED_POINT_SCALE⌋ else ⌈v * FIXED_POINT_SCALE⌉

/-- The filtered, inverse-transformed stack and the group weight for one
reference location and one channel (the per-channel body of
`run_bm3d_step_joint`). -/
def taskOutStack (noisyCh guideCh : ℕ → ℝ) (w : ℕ) (locs : List (ℕ × ℕ))
    (is_step_1 : Bool) (params : Bm3dParams) : (ℕ → ℝ) × ℝ :=
  let n := locs.length
  let tG := transform_3d n (build_3d_group guideCh w locs)
  if is_step_1 then
    (inverse_transform_3d n (hard_threshold (n * 64) tG (params.hard_th_lambda * params.sigma)).1,
     step1Weight (hard_threshold (n * 64) tG (params.hard_th_lambda * params.sigma)).2)
  else
    (inverse_transform_3d n
        (wiener_filter (n * 64) (transform_3d n (build_3d_group noisyCh w locs)) tG
          params.sigma).1,
     (wiener_filter (n * 64) (transform_3d n (build_3d_group noisyCh w locs)) tG
        params.sigma).2)

/-- The match set of one reference-location task. -/
def taskLocs (sorter : List BmMatch → List BmMatch) (guide : ℕ → ℕ → ℝ) (w h : ℕ)
    (is_step_1 : Bool) (params : Bm3dParams) (rxy : ℕ × ℕ) : List (ℕ × ℕ) :=
  block_matching_joint sorter (guide 0) (guide 1) (guide 2) w h rxy.1 rxy.2 is_step_1 params

/-- The numerator `fetch_add` updates of one task and channel. -/
def numUpdates (outStack : ℕ → ℝ) (weight : ℝ) (w : ℕ) (locs : List (ℕ × ℕ)) :
    List (ℕ × ℤ) :=
  (List.range locs.length).flatMap fun k =>
    (List.range 8).flatMap fun dy =>
      (List.range 8).map fun dx =>
        (((locs.getD k (0, 0)).2 + dy) * w + (locs.getD k (0, 0)).1 + dx,
         toFixed (outStack (k * 64 + dy * 8 + dx) * (kaiser (dy * 8 + dx) * weight)))

/-- The denominator `fetch_add` updates of one task and channel. -/
def denUpdates (weight : ℝ) (w : ℕ) (locs : List (ℕ × ℕ)) : List (ℕ × ℤ) :=
  (List.range locs.length).flatMap fun k =>
    (List.range 8).flatMap fun dy =>
      (List.range 8).map fun dx =>
        (((locs.getD k (0, 0)).2 + dy) * w + (locs.getD k (0, 0)).1 + dx,
         toFixed (kaiser (dy * 8 + dx) * weight))

/-- Apply a sequence of atomic `fetch_add` updates to an accumulator. -/
def applyUpdates (l : List (ℕ × ℤ)) (acc : ℕ → ℤ) : ℕ → ℤ :=
  l.foldl (fun acc u => fun j => if j = u.1 then acc j + u.2 else acc j) acc

/-- The all-zero accumulator (`AtomicAccumulator::new`). -/
def zeroAcc : ℕ → ℤ := fun _ => 0

/-- All numerator updates of one pass for one channel, task by task. -/
def passNumUpdates (sorter : List BmMatch → List BmMatch) (noisy guide : ℕ → ℕ → ℝ)
    (w h : ℕ) (is_step_1 : Bool) (params : Bm3dParams) (ch : ℕ) : List (ℕ × ℤ) :=
  (refPatches w h).flatMap fun rxy =>
    numUpdates (taskOutStack (noisy ch) (guide ch) w
        (taskLocs sorter guide w h is_step_1 params rxy) is_step_1 params).1
      (taskOutStack (noisy ch) (guide ch) w
        (taskLocs sorter guide w h is_step_1 params rxy) is_step_1 params).2
      w (taskLocs sorter guide w h is_step_1 params rxy)

/-- All denominator updates of one pass for one channel, task by task. -/
def passDenUpdates (sorter : List BmMatch → List BmMatch) (noisy guide : ℕ → ℕ → ℝ)
    (w h : ℕ) (is_step_1 : Bool) (params : Bm3dParams) (ch : ℕ) : List (ℕ × ℤ) :=
  (refPatches w h).flatMap fun rxy =>
    denUpdates (taskOutStack (noisy ch) (guide ch) w
        (taskLocs sorter guide w h is_step_1 params rxy) is_step_1 params).2
      w (taskLocs sorter guide w h is_step_1 params rxy)

/-- The numerator accumulator at the end of a pass. -/
def passNum (sorter : List BmMatch → List BmMatch) (noisy guide : ℕ → ℕ → ℝ)
    (w h : ℕ) (is_step_1 : Bool) (params : Bm3dParams) (ch : ℕ) : ℕ → ℤ :=
  applyUpdates (passNumUpdates sorter noisy guide w h is_step_1 params ch) zeroAcc

/-- The denominator accumulator at the end of a pass. -/
def passDen (sorter : List BmMatch → List BmMatch) (noisy guide : ℕ → ℕ → ℝ)
    (w h : ℕ) (is_step_1 : Bool) (params : Bm3dParams) (ch : ℕ) : ℕ → ℤ :=
  applyUpdates (passDenUpdates sorter noisy guide w h is_step_1 params ch) zeroAcc

/-- One BM3D pass (`run_bm3d_step_joint`): final divide of the fixed-point
accumulators, keeping the raw numerator where the denominator is tiny. -/
def run_bm3d_step_joint (sorter : List BmMatch → List BmMatch) (noisy guide : ℕ → ℕ → ℝ)
    (w h : ℕ) (is_step_1 : Bool) (params : Bm3dParams) : ℕ → ℕ → ℝ :=
  fun ch i =>
    if ((passDen sorter noisy guide w h is_step_1 params ch i : ℝ) / FIXED_POINT_SCALE) > 1e-6
    then ((passNum sorter noisy guide w h is_step_1 params ch i : ℝ) / FIXED_POINT_SCALE)
        / ((passDen sorter noisy guide w h is_step_1 params ch i : ℝ) / FIXED_POINT_SCALE)
    else ((passNum sorter noisy guide w h is_step_1 params ch i : ℝ) / FIXED_POINT_SCALE)

/-- `bm3d_process_joint`: pass 1 produces the basic estimate, pass 2 uses it
as the guide. -/
def bm3d_process_joint (sorter : List BmMatch → List BmMatch) (noisy : ℕ → ℕ → ℝ)
    (w h : ℕ) (params : Bm3dParams) : ℕ → ℕ → ℝ :=
  run_bm3d_step_joint sorter noisy
    (run_bm3d_step_joint sorter noisy noisy w h true params) w h false params

/-- `split_channels`: scale each linear component by 255 into planar arrays. -/
def split_channels (img : ℕ → ℕ → ℝ) : ℕ → ℕ → ℝ :=
  fun ch i => img ch i * 255.0

/-- `merge_channels`: clamp to `[0, 255]` and scale back to `[0, 1]`. -/
def merge_channels (channels : ℕ → ℕ → ℝ) : ℕ → ℕ → ℝ :=
  fun ch i => rclamp (channels ch i) 0.0 255.0 / 255.0

/-- The whole denoising pipeline on an in-memory image (the numeric core of
`denoise_image`, after decoding and before preview encoding). -/
def denoiseModel (sorter : List BmMatch → List BmMatch) (img : ℕ → ℕ → ℝ) (w h : ℕ)
    (intensity : ℝ) : ℕ → ℕ → ℝ :=
  merge_channels
    (bm3d_process_joint sorter (split_channels img) w h (Bm3dParams.from_intensity intensity))

/-- Atomic adds commute: applying a permutation of the update sequence yields
the same accumulator. -/
theorem applyUpdates_perm (l1 l2 : List (ℕ × ℤ)) (hp : l1.Perm l2) (acc : ℕ → ℤ) :
    applyUpdates l1 acc = applyUpdates l2 acc := by
  induction hp generalizing acc with
  | nil => rfl
  | cons u _ ih =>
      simp only [applyUpdates, List.foldl]
      exact ih _
  | swap u v t =>
      simp only [applyUpdates, List.foldl]
      have hcomm : (fun j => if j = u.1 then
            (fun j2 => if j2 = v.1 then acc j2 + v.2 else acc j2) j + u.2
          else (fun j2 => if j2 = v.1 then acc j2 + v.2 else acc j2) j)
          = fun j => if j = v.1 then
            (fun j2 => if j2 = u.1 then acc j2 + u.2 else acc j2) j + v.2
          else (fun j2 => if j2 = u.1 then acc j2 + u.2 else acc j2) j := by
        funext j
        by_cases hu : j = u.1 <;> by_cases hv : j = v.1 <;>
          simp [hu, hv] <;> split_ifs <;>
          first
          | ring
          | (exfalso; omega)
      rw [hcomm]
  | trans _ _ ih1 ih2 => exact (ih1 acc).trans (ih2 acc)

/-- C5: one BM3D pass is exactly order-independent. Replaying the pass's
fixed-point `fetch_add` updates in any permuted order (any interleaving of the
reference-location tasks) produces the same accumulators and hence the same
divided output as `run_bm3d_step_joint`. -/
theorem C5_pass_order_independent (sorter : List BmMatch → List BmMatch)
    (noisy guide : ℕ → ℕ → ℝ) (w h : ℕ) (is_step_1 : Bool) (params : Bm3dParams)
    (ch : ℕ) (ln ld : List (ℕ × ℤ))
    (hn : ln.Perm (passNumUpdates sorter noisy guide w h is_step_1 params ch))
    (hd : ld.Perm (passDenUpdates sorter noisy guide w h is_step_1 params ch)) (i : ℕ) :
    (if ((applyUpdates ld zeroAcc i : ℝ) / FIXED_POINT_SCALE) > 1e-6
      then ((applyUpdates ln zeroAcc i : ℝ) / FIXED_POINT_SCALE)
          / ((applyUpdates ld zeroAcc i : ℝ) / FIXED_POINT_SCALE)
      else ((applyUpdates ln zeroAcc i : ℝ) / FIXED_POINT_SCALE))
      = run_bm3d_step_joint sorter noisy guide w h is_step_1 params ch i := by
  rw [applyUpdates_perm _ _ hn zeroAcc, applyUpdates_perm _ _ hd zeroAcc]
  rfl

/-- Witness for C5 with the identity permutation on a 9×9 image. -/
theorem C5_pass_order_independent_witness :
    (if ((applyUpdates (passDenUpdates sorterLe (fun _ _ => (0 : ℝ)) (fun _ _ => 0) 9 9 true
            (Bm3dParams.from_intensity 0.5) 0) zeroAcc 0 : ℝ) / FIXED_POINT_SCALE) > 1e-6
      then ((applyUpdates (passNumUpdates sorterLe (fun _ _ => (0 : ℝ)) (fun _ _ => 0) 9 9 true
            (Bm3dParams.from_intensity 0.5) 0) zeroAcc 0 : ℝ) / FIXED_POINT_SCALE)
          / ((applyUpdates (passDenUpdates sorterLe (fun _ _ => (0 : ℝ)) (fun _ _ => 0) 9 9 true
            (Bm3dParams.from_intensity 0.5) 0) zeroAcc 0 : ℝ) / FIXED_POINT_SCALE)
      else ((applyUpdates (passNumUpdates sorterLe (fun _ _ => (0 : ℝ)) (fun _ _ => 0) 9 9 true
            (Bm3dParams.from_intensity 0.5) 0) zeroAcc 0 : ℝ) / FIXED_POINT_SCALE))
      = run_bm3d_step_joint sorterLe (fun _ _ => (0 : ℝ)) (fun _ _ => 0) 9 9 true
          (Bm3dParams.from_intensity 0.5) 0 0 :=
  C5_pass_order_independent sorterLe (fun _ _ => (0 : ℝ)) (fun _ _ => 0) 9 9 true
    (Bm3dParams.from_intensity 0.5) 0 _ _ (List.Perm.refl _) (List.Perm.refl _) 0

/-- C9: the precomputed progress denominator does not match the number of
reference-location tasks actually executed. At width = height = 14 the code
precomputes 8 work units but runs only 2 tasks across both passes, so the
percentage can never reach 100%. -/
theorem C9_progress_total_mismatch :
    total_work_units 14 14 = 8
    ∧ 2 * (refPatches 14 14).length = 2
    ∧ total_work_units 14 14 ≠ 2 * (refPatches 14 14).length := by
  refine ⟨rfl, rfl, ?_⟩
  decide

/-- The reference grid is empty as soon as either dimension is below 8. -/
theorem refPatches_nil (w h : ℕ) (hsmall : w < 8 ∨ h < 8) : refPatches w h = [] := by
  rcases hsmall with hw | hh
  · have hw0 : w - 8 = 0 := by omega
    rw [refPatches, hw0]
    have h0 : stepRange 0 = [] := rfl
    rw [h0]
    simp
  · have hh0 : h - 8 = 0 := by omega
    rw [refPatches, hh0]
    have h0 : stepRange 0 = [] := rfl
    rw [h0]
    rfl

/-- With an empty reference grid a pass leaves both accumulators zero and
outputs the zero channel. -/
theorem run_bm3d_step_small (sorter : List BmMatch → List BmMatch)
    (noisy guide : ℕ → ℕ → ℝ) (w h : ℕ) (is_step_1 : Bool) (params : Bm3dParams)
    (hsmall : w < 8 ∨ h < 8) (ch i : ℕ) :
    run_bm3d_step_joint sorter noisy guide w h is_step_1 params ch i = 0 := by
  have hrp := refPatches_nil w h hsmall
  have hnum : passNumUpdates sorter noisy guide w h is_step_1 params ch = [] := by
    rw [passNumUpdates, hrp]
    rfl
  have hden : passDenUpdates sorter noisy guide w h is_step_1 params ch = [] := by
    rw [passDenUpdates, hrp]
    rfl
  rw [run_bm3d_step_joint]
  simp only [passNum, passDen, hnum, hden]
  have hz : applyUpdates [] zeroAcc i = 0 := rfl
  rw [hz]
  norm_num [FIXED_POINT_SCALE]

/-- C7: for an image narrower or shorter than 8 pixels the pipeline does not
panic (the model is total) but returns the all-zero image, not the unmodified
input: there is no degenerate-dimension guard in the code. -/
theorem C7_small_image_zeroed (sorter : List BmMatch → List BmMatch) (img : ℕ → ℕ → ℝ)
    (intensity : ℝ) (w h : ℕ) (hsmall : w < 8 ∨ h < 8) (ch i : ℕ) :
    denoiseModel sorter img w h intensity ch i = 0 := by
  rw [denoiseModel, merge_channels]
  have h2 : bm3d_process_joint sorter (split_channels img) w h
      (Bm3dParams.from_intensity intensity) ch i = 0 := by
    rw [bm3d_process_joint]
    exact run_bm3d_step_small sorter _ _ w h false _ hsmall ch i
  rw [h2]
  norm_num [rclamp, max_def, min_def]

/-- Witness for C7: a constant 4×4 image comes back all-zero, not unchanged. -/
theorem C7_small_image_zeroed_witness :
    denoiseModel sorterLe (fun _ _ => (0.5 : ℝ)) 4 4 0.5 0 0 = 0
    ∧ (fun _ _ => (0.5 : ℝ)) 0 0 ≠ (0 : ℝ) :=
  ⟨C7_small_image_zeroed sorterLe (fun _ _ => (0.5 : ℝ)) 0.5 4 4 (Or.inl (by norm_num)) 0 0,
   by norm_num⟩

/-- Size bounds of the match set, shared by the aggregation lemmas. -/
theorem block_matching_joint_length_bounds (sorter : List BmMatch → List BmMatch)
    (hs : SortSpec sorter) (ch0 ch1 ch2 : ℕ → ℝ) (w h rx ry : ℕ) (is_step_1 : Bool)
    (params : Bm3dParams) :
    1 ≤ (block_matching_joint sorter ch0 ch1 ch2 w h rx ry is_step_1 params).length
    ∧ (block_matching_joint sorter ch0 ch1 ch2 w h rx ry is_step_1 params).length ≤ 16 := by
  obtain ⟨hperm, _⟩ :=
    hs (bmCandidates ch0 ch1 ch2 w h rx ry (bmThreshold is_step_1 params))
  set cands := bmCandidates ch0 ch1 ch2 w h rx ry (bmThreshold is_step_1 params) with hcands
  have hinv := bmFold_invariants ch0 ch1 ch2 w rx ry (bmThreshold is_step_1 params)
    (extract_patch ch0 w rx ry) (extract_patch ch1 w rx ry) (extract_patch ch2 w rx ry)
    (searchCoords w h rx ry) [⟨0, rx, ry⟩]
  have hlen1 : 1 ≤ cands.length := by
    have := hinv.1
    simpa [hcands, bmCandidates] using this
  have hp2 : 1 ≤ prev_power_of_two (min 16 cands.length)
      ∧ prev_power_of_two (min 16 cands.length) ≤ min 16 cands.length := by
    have hub : min 16 cands.length ≤ 16 := min_le_left _ _
    have hlb : 1 ≤ min 16 cands.length := by omega
    generalize min 16 cands.length = m at hub hlb ⊢
    interval_cases m <;>
      rw [prev_power_of_two_val _ (by norm_num) (by norm_num)] <;> norm_num
  have hlen_sorted : (sorter cands).length = cands.length := hperm.length_eq
  rw [block_matching_joint, List.length_map, List.length_take, hlen_sorted, ← hcands]
  omega

theorem wienerSum_ge_one (len : ℕ) (guide : ℕ → ℝ) (sigma : ℝ) (hlen : 0 < len) :
    (1 : ℝ) ≤ wienerSum len guide sigma := by
  rw [wienerSum]
  have hins : Finset.range len = insert 0 (Finset.Ioo 0 len) := by
    ext i
    simp [Finset.mem_range, Finset.mem_insert, Finset.mem_Ioo]
    omega
  rw [hins, Finset.sum_insert (by simp), if_pos rfl]
  have hnn : (0 : ℝ) ≤ ∑ i ∈ Finset.Ioo 0 len,
      (if i = 0 then 1 else wienerCoef (guide i) sigma * wienerCoef (guide i) sigma) := by
    apply Finset.sum_nonneg
    intro i _
    rcases eq_or_ne i 0 with h2 | h2
    · simp [h2]
    · rw [if_neg h2]
      exact mul_self_nonneg _
  linarith

theorem wienerCoef_mem_unit (g sigma : ℝ) : 0 ≤ wienerCoef g sigma ∧ wienerCoef g sigma ≤ 1 := by
  rw [wienerCoef]
  have hden : (0 : ℝ) < g * g + sigma * sigma + 1e-5 := by
    have h1 : 0 ≤ g * g := mul_self_nonneg g
    have h2 : 0 ≤ sigma * sigma := mul_self_nonneg sigma
    nlinarith
  constructor
  · exact div_nonneg (mul_self_nonneg g) (le_of_lt hden)
  · rw [div_le_one hden]
    nlinarith [mul_self_nonneg sigma]

theorem wienerSum_le (len : ℕ) (guide : ℕ → ℝ) (sigma : ℝ) :
    wienerSum len guide sigma ≤ (len : ℝ) := by
  rw [wienerSum]
  calc ∑ i ∈ Finset.range len,
        (if i = 0 then (1 : ℝ) else wienerCoef (guide i) sigma * wienerCoef (guide i) sigma)
      ≤ ∑ _i ∈ Finset.range len, (1 : ℝ) := by
        apply Finset.sum_le_sum
        intro i _
        rcases eq_or_ne i 0 with h2 | h2
        · simp [h2]
        · rw [if_neg h2]
          rcases wienerCoef_mem_unit (guide i) sigma with ⟨h0, h1⟩
          nlinarith
    _ = (len : ℝ) := by rw [Finset.sum_const, Finset.card_range, nsmul_eq_mul]; ring

theorem hard_count_pos (len : ℕ) (s : ℕ → ℝ) (th : ℝ) (hlen : 0 < len) :
    1 ≤ (hard_threshold len s th).2 := by
  simp only [hard_threshold]
  apply Finset.card_pos.mpr
  exact ⟨0, by simp [Finset.mem_filter, Finset.mem_range, hlen]⟩

theorem hard_count_le (len : ℕ) (s : ℕ → ℝ) (th : ℝ) :
    (hard_threshold len s th).2 ≤ len := by
  simp only [hard_threshold]
  calc ((Finset.range len).filter fun i => i = 0 ∨ ¬ |s i| < th).card
      ≤ (Finset.range len).card := Finset.card_filter_le _ _
    _ = len := Finset.card_range len

/-- Group weights are never negative, in either pass. -/
theorem taskWeight_nonneg (noisyCh guideCh : ℕ → ℝ) (w : ℕ) (locs : List (ℕ × ℕ))
    (is_step_1 : Bool) (params : Bm3dParams) :
    0 ≤ (taskOutStack noisyCh guideCh w locs is_step_1 params).2 := by
  rw [taskOutStack]
  rcases is_step_1 with _ | _
  · simp only [Bool.false_eq_true, if_false]
    rw [wiener_filter]
    simp only
    split_ifs with hsum
    · positivity
    · norm_num
  · simp only [if_true]
    rw [step1Weight]
    split_ifs with hc
    · positivity
    · norm_num

/-- With a match set of admissible size, the group weight is at least
`1/1024` in either pass. -/
theorem taskWeight_lb (noisyCh guideCh : ℕ → ℝ) (w : ℕ) (locs : List (ℕ × ℕ))
    (is_step_1 : Bool) (params : Bm3dParams)
    (h1 : 1 ≤ locs.length) (h16 : locs.length ≤ 16) :
    1 / 1024 ≤ (taskOutStack noisyCh guideCh w locs is_step_1 params).2 := by
  have hlen0 : 0 < locs.length * 64 := by omega
  have hlen1024 : locs.length * 64 ≤ 1024 := by omega
  rw [taskOutStack]
  rcases is_step_1 with _ | _
  · simp only [Bool.false_eq_true, if_false]
    rw [wiener_filter]
    simp only
    have hge := wienerSum_ge_one (locs.length * 64)
      (transform_3d locs.length (build_3d_group guideCh w locs)) params.sigma hlen0
    have hle := wienerSum_le (locs.length * 64)
      (transform_3d locs.length (build_3d_group guideCh w locs)) params.sigma
    rw [if_pos (by linarith)]
    have hle2 : wienerSum (locs.length * 64)
        (transform_3d locs.length (build_3d_group guideCh w locs)) params.sigma ≤ 1024 := by
      calc wienerSum (locs.length * 64)
            (transform_3d locs.length (build_3d_group guideCh w locs)) params.sigma
          ≤ (locs.length * 64 : ℕ) := hle
        _ ≤ 1024 := by exact_mod_cast hlen1024
    rw [div_le_div_iff (by norm_num) (by linarith)]
    linarith
  · simp only [if_true]
    rw [step1Weight]
    have hc1 := hard_count_pos (locs.length * 64)
      (transform_3d locs.length (build_3d_group guideCh w locs))
      (params.hard_th_lambda * params.sigma) hlen0
    have hc2 := hard_count_le (locs.length * 64)
      (transform_3d locs.length (build_3d_group guideCh w locs))
      (params.hard_th_lambda * params.sigma)
    rw [if_pos (by omega)]
    have hcr : ((hard_threshold (locs.length * 64)
        (transform_3d locs.length (build_3d_group guideCh w locs))
        (params.hard_th_lambda * params.sigma)).2 : ℝ) ≤ 1024 := by
      have : (hard_threshold (locs.length * 64)
          (transform_3d locs.length (build_3d_group guideCh w locs))
          (params.hard_th_lambda * params.sigma)).2 ≤ 1024 := by omega
      exact_mod_cast this
    have hcp : (0 : ℝ) < ((hard_threshold (locs.length * 64)
        (transform_3d locs.length (build_3d_group guideCh w locs))
        (params.hard_th_lambda * params.sigma)).2 : ℝ) := by
      exact_mod_cast hc1
    rw [div_le_div_iff (by norm_num) hcp]
    linarith

theorem kaiser_nonneg (i : ℕ) (hi : i < 64) : 0 ≤ kaiser i := by
  rw [kaiser]
  have hs : ∀ t : ℕ, t ≤ 7 → 0 ≤ Real.sin (Real.pi * t / 7) := by
    intro t ht
    apply Real.sin_nonneg_of_nonneg_of_le_pi
    · positivity
    · have ht7 : (t : ℝ) ≤ 7 := by exact_mod_cast ht
      have hpi := Real.pi_pos
      rw [div_le_iff₀ (by norm_num : (0:ℝ) < 7)]
      nlinarith
  exact mul_nonneg (hs _ (by omega)) (hs _ (by omega))

theorem sin_pi_div_seven_lb : (0.42 : ℝ) ≤ Real.sin (Real.pi / 7) := by
  have h1 : (0.4487 : ℝ) ≤ Real.pi / 7 := by
    have := Real.pi_gt_d4
    linarith
  have h2 : Real.pi / 7 ≤ 0.449 := by
    have := Real.pi_lt_d4
    linarith
  have h3 := Real.sin_gt_sub_cube (by linarith : (0:ℝ) < Real.pi / 7)
    (by linarith : Real.pi / 7 ≤ 1)
  have hcube : (Real.pi / 7) ^ 3 ≤ 0.449 ^ 3 := by
    apply pow_le_pow_left (by linarith) h2
  nlinarith

theorem sin_interior_lb (t : ℕ) (h1 : 1 ≤ t) (h6 : t ≤ 6) :
    (0.42 : ℝ) ≤ Real.sin (Real.pi * t / 7) := by
  have hpi := Real.pi_pos
  have hmono := Real.strictMonoOn_sin.monotoneOn
  have hmem : ∀ u : ℝ, 0 ≤ u → u ≤ Real.pi / 2
      → u ∈ Set.Icc (-(Real.pi / 2)) (Real.pi / 2) := by
    intro u hu0 hu2
    exact Set.mem_Icc.mpr ⟨by linarith, hu2⟩
  have hstep : ∀ r : ℝ, 1 ≤ r → r ≤ 3.5 → (0.42 : ℝ) ≤ Real.sin (Real.pi * r / 7) := by
    intro r hr1 hr3
    have hge : Real.pi / 7 ≤ Real.pi * r / 7 := by
      rw [div_le_div_iff (by norm_num) (by norm_num)]
      nlinarith
    have hle2 : Real.pi * r / 7 ≤ Real.pi / 2 := by
      rw [div_le_div_iff (by norm_num) (by norm_num)]
      nlinarith
    have := hmono (hmem (Real.pi / 7) (by positivity) (by linarith))
      (hmem (Real.pi * r / 7) (by positivity) hle2) hge
    linarith [sin_pi_div_seven_lb]
  interval_cases t <;> push_cast
  · exact hstep 1 (by norm_num) (by norm_num)
  · exact hstep 2 (by norm_num) (by norm_num)
  · exact hstep 3 (by norm_num) (by norm_num)
  · rw [show Real.pi * 4 / 7 = Real.pi - Real.pi * 3 / 7 from by ring, Real.sin_pi_sub]
    exact hstep 3 (by norm_num) (by norm_num)
  · rw [show Real.pi * 5 / 7 = Real.pi - Real.pi * 2 / 7 from by ring, Real.sin_pi_sub]
    exact hstep 2 (by norm_num) (by norm_num)
  · rw [show Real.pi * 6 / 7 = Real.pi - Real.pi * 1 / 7 from by ring, Real.sin_pi_sub]
    exact hstep 1 (by norm_num) (by norm_num)

/-- At interior offsets (both coordinates in 1..6) the window weight is at
least `0.42^2`. -/
theorem kaiser_interior_lb (dx dy : ℕ) (hdx1 : 1 ≤ dx) (hdx6 : dx ≤ 6)
    (hdy1 : 1 ≤ dy) (hdy6 : dy ≤ 6) :
    (0.42 * 0.42 : ℝ) ≤ kaiser (dy * 8 + dx) := by
  rw [kaiser]
  have e1 : (dy * 8 + dx) % 8 = dx := by omega
  have e2 : (dy * 8 + dx) / 8 = dy := by omega
  rw [e1, e2]
  have s1 := sin_interior_lb dx hdx1 hdx6
  have s2 := sin_interior_lb dy hdy1 hdy6
  have h42 : (0 : ℝ) ≤ 0.42 := by norm_num
  exact mul_le_mul s1 s2 h42 (le_trans h42 s1)

theorem toFixed_nonneg (v : ℝ) (hv : 0 ≤ v) : 0 ≤ toFixed v := by
  rw [toFixed]
  have hFP : (0 : ℝ) ≤ v * FIXED_POINT_SCALE := by
    rw [FIXED_POINT_SCALE]
    positivity
  rw [if_pos hFP]
  exact Int.le_floor.mpr (by exact_mod_cast hFP)

theorem toFixed_ge_one (v : ℝ) (hv : 1 ≤ v * FIXED_POINT_SCALE) : 1 ≤ toFixed v := by
  rw [toFixed, if_pos (by linarith)]
  exact Int.le_floor.mpr (by exact_mod_cast hv)

/-- Evaluating a sequence of updates at one cell: the initial value plus the
sum of all updates targeting that cell. -/
theorem applyUpdates_apply (l : List (ℕ × ℤ)) :
    ∀ (acc : ℕ → ℤ) (j : ℕ),
      applyUpdates l acc j
        = acc j + ((l.filter fun u => u.1 = j).map Prod.snd).sum := by
  induction l with
  | nil => intro acc j; simp [applyUpdates]
  | cons u t ih =>
      intro acc j
      have h1 : applyUpdates (u :: t) acc j
          = applyUpdates t (fun j2 => if j2 = u.1 then acc j2 + u.2 else acc j2) j := rfl
      rw [h1, ih]
      by_cases huj : u.1 = j
      · rw [List.filter_cons_of_pos (by exact decide_eq_true huj)]
        simp only [List.map_cons, List.sum_cons]
        rw [if_pos huj.symm]
        ring
      · rw [List.filter_cons_of_neg (by simpa using huj)]
        rw [if_neg fun h2 => huj h2.symm]

/-- The denominator update of a given patch cell is among the task's updates. -/
theorem denUpdate_mem (weight : ℝ) (w : ℕ) (locs : List (ℕ × ℕ)) (lx ly : ℕ)
    (hmem : (lx, ly) ∈ locs) (dx dy : ℕ) (hdx : dx < 8) (hdy : dy < 8) :
    ((ly + dy) * w + lx + dx, toFixed (kaiser (dy * 8 + dx) * weight))
      ∈ denUpdates weight w locs := by
  obtain ⟨⟨k, hk⟩, hget⟩ := List.mem_iff_get.mp hmem
  rw [denUpdates]
  apply List.mem_flatMap.mpr
  refine ⟨k, List.mem_range.mpr hk, ?_⟩
  apply List.mem_flatMap.mpr
  refine ⟨dy, List.mem_range.mpr hdy, ?_⟩
  apply List.mem_map.mpr
  refine ⟨dx, List.mem_range.mpr hdx, ?_⟩
  have hD : locs.getD k (0, 0) = (lx, ly) := by
    rw [List.getD_eq_get _ _ hk, hget]
  rw [hD]

/-- Every denominator update of a pass is nonnegative. -/
theorem passDenUpdates_nonneg (sorter : List BmMatch → List BmMatch)
    (noisy guide : ℕ → ℕ → ℝ) (w h : ℕ) (is_step_1 : Bool) (params : Bm3dParams) (ch : ℕ) :
    ∀ u ∈ passDenUpdates sorter noisy guide w h is_step_1 params ch, 0 ≤ u.2 := by
  intro u hu
  rw [passDenUpdates] at hu
  obtain ⟨rxy, _, hu2⟩ := List.mem_flatMap.mp hu
  rw [denUpdates] at hu2
  obtain ⟨k, _, hu3⟩ := List.mem_flatMap.mp hu2
  obtain ⟨dy, hdy, hu4⟩ := List.mem_flatMap.mp hu3
  obtain ⟨dx, hdx, hu5⟩ := List.mem_map.mp hu4
  rw [← hu5]
  apply toFixed_nonneg
  apply mul_nonneg
  · refine kaiser_nonneg _ ?_
    have h1 := List.mem_range.mp hdy
    have h2 := List.mem_range.mp hdx
    omega
  · exact taskWeight_nonneg _ _ _ _ _ _

/-- An interior window cell with an admissible group weight produces a
fixed-point increment of at least one. -/
theorem interiorCell_ge_one (wt : ℝ) (hwlb : 1 / 1024 ≤ wt) (dx dy : ℕ)
    (hdx1 : 1 ≤ dx) (hdx6 : dx ≤ 6) (hdy1 : 1 ≤ dy) (hdy6 : dy ≤ 6) :
    1 ≤ toFixed (kaiser (dy * 8 + dx) * wt) := by
  apply toFixed_ge_one
  have hk := kaiser_interior_lb dx dy hdx1 hdx6 hdy1 hdy6
  have hprod : (0.42 * 0.42 : ℝ) * (1 / 1024) ≤ kaiser (dy * 8 + dx) * wt :=
    mul_le_mul hk hwlb (by norm_num) (le_trans (by norm_num) hk)
  rw [FIXED_POINT_SCALE]
  nlinarith

/-- C6 (amended): after a pass, the denominator accumulator is strictly
positive at every pixel that some processed patch covers at an interior
offset (both in-patch coordinates in 1..6). On the patch border the window
weight `sin(pi*x/7)*sin(pi*y/7)` is exactly zero, so the original claim
(positivity for every covered pixel) fails there. -/
theorem C6_interior_denominator_pos (sorter : List BmMatch → List BmMatch)
    (hs : SortSpec sorter) (noisy guide : ℕ → ℕ → ℝ) (w h : ℕ) (is_step_1 : Bool)
    (params : Bm3dParams) (ch : ℕ) (rxy : ℕ × ℕ) (hr : rxy ∈ refPatches w h) (lx ly : ℕ)
    (hloc : (lx, ly) ∈ taskLocs sorter guide w h is_step_1 params rxy)
    (dx dy : ℕ) (hdx1 : 1 ≤ dx) (hdx6 : dx ≤ 6) (hdy1 : 1 ≤ dy) (hdy6 : dy ≤ 6) :
    0 < passDen sorter noisy guide w h is_step_1 params ch ((ly + dy) * w + lx + dx) := by
  obtain ⟨wt, hwt⟩ : ∃ wt, (taskOutStack (noisy ch) (guide ch) w
      (taskLocs sorter guide w h is_step_1 params rxy) is_step_1 params).2 = wt := ⟨_, rfl⟩
  obtain ⟨j, hj⟩ : ∃ j, (ly + dy) * w + lx + dx = j := ⟨_, rfl⟩
  have hlb := block_matching_joint_length_bounds sorter hs (guide 0) (guide 1) (guide 2)
    w h rxy.1 rxy.2 is_step_1 params
  have hwlb : 1 / 1024 ≤ wt := by
    rw [← hwt]
    exact taskWeight_lb _ _ _ _ _ _ hlb.1 hlb.2
  have hval : 1 ≤ toFixed (kaiser (dy * 8 + dx) * wt) :=
    interiorCell_ge_one wt hwlb dx dy hdx1 hdx6 hdy1 hdy6
  have hmem0 : (j, toFixed (kaiser (dy * 8 + dx) * wt))
      ∈ passDenUpdates sorter noisy guide w h is_step_1 params ch := by
    rw [passDenUpdates]
    apply List.mem_flatMap.mpr
    refine ⟨rxy, hr, ?_⟩
    rw [hwt]
    have := denUpdate_mem wt w (taskLocs sorter guide w h is_step_1 params rxy)
      lx ly hloc dx dy (by omega) (by omega)
    rw [hj] at this
    exact this
  have hmemf : (j, toFixed (kaiser (dy * 8 + dx) * wt))
      ∈ (passDenUpdates sorter noisy guide w h is_step_1 params ch).filter
          fun u => u.1 = j :=
    List.mem_filter.mpr ⟨hmem0, by simp⟩
  have hmemmap : toFixed (kaiser (dy * 8 + dx) * wt)
      ∈ ((passDenUpdates sorter noisy guide w h is_step_1 params ch).filter
          fun u => u.1 = j).map Prod.snd :=
    List.mem_map.mpr ⟨_, hmemf, rfl⟩
  have hnnall : ∀ x ∈ ((passDenUpdates sorter noisy guide w h is_step_1 params ch).filter
      fun u => u.1 = j).map Prod.snd, 0 ≤ x := by
    intro x hx
    obtain ⟨u, hu, hux⟩ := List.mem_map.mp hx
    rw [← hux]
    exact passDenUpdates_nonneg sorter noisy guide w h is_step_1 params ch u
      (List.mem_filter.mp hu).1
  rw [hj, passDen, applyUpdates_apply, show zeroAcc j = 0 from rfl, zero_add]
  exact lt_of_lt_of_le Int.zero_lt_one
    (le_trans hval (List.single_le_sum hnnall _ hmemmap))

/-- Concrete candidate list on the all-zero 9×9 image at reference (0,0):
the seeded reference plus three distance-0 candidates. -/
theorem cands_eval_zero9x9 :
    bmCandidates (fun _ => (0 : ℝ)) (fun _ => 0) (fun _ => 0) 9 9 0 0 13000
      = [⟨0, 0, 0⟩, ⟨0, 1, 0⟩, ⟨0, 0, 1⟩, ⟨0, 1, 1⟩] := by
  have hssd : ∀ x y : ℕ, ∀ t : ℝ, 0 ≤ t →
      compute_ssd_flat (fun _ => (0 : ℝ)) 9 x y (extract_patch (fun _ => (0 : ℝ)) 9 0 0) t
        = 0 :=
    fun x y t ht => ssd_const_zero 9 x y 0 0 t ht
  have haccept : ∀ (acc : List BmMatch) (cx cy : ℕ), ¬(cx = 0 ∧ cy = 0) →
      acc.length < 1024 →
      bmStep (fun _ => (0 : ℝ)) (fun _ => 0) (fun _ => 0) 9 0 0 13000
        (extract_patch (fun _ => (0 : ℝ)) 9 0 0) (extract_patch (fun _ => (0 : ℝ)) 9 0 0)
        (extract_patch (fun _ => (0 : ℝ)) 9 0 0) acc (cx, cy) = acc ++ [⟨0, cx, cy⟩] := by
    intro acc cx cy hne hlen
    rw [bmStep, if_neg hne]
    simp only
    rw [hssd cx cy 13000 (by norm_num)]
    rw [if_neg (by norm_num), hssd cx cy (13000 - 0) (by norm_num)]
    rw [if_neg (by norm_num), hssd cx cy (13000 - (0 + 0)) (by norm_num)]
    rw [if_pos (by norm_num), if_pos hlen]
    norm_num
  rw [bmCandidates, show searchCoords 9 9 0 0 = [(0, 0), (1, 0), (0, 1), (1, 1)] from rfl]
  simp only [List.foldl]
  rw [show bmStep (fun _ => (0 : ℝ)) (fun _ => 0) (fun _ => 0) 9 0 0 13000
      (extract_patch (fun _ => (0 : ℝ)) 9 0 0) (extract_patch (fun _ => (0 : ℝ)) 9 0 0)
      (extract_patch (fun _ => (0 : ℝ)) 9 0 0) [⟨0, 0, 0⟩] (0, 0) = [⟨0, 0, 0⟩] from by
    rw [bmStep, if_pos ⟨rfl, rfl⟩]]
  rw [haccept [⟨0, 0, 0⟩] 1 0 (by decide) (by decide)]
  simp only [List.cons_append, List.nil_append]
  rw [haccept [⟨0, 0, 0⟩, ⟨0, 1, 0⟩] 0 1 (by decide) (by decide)]
  simp only [List.cons_append, List.nil_append]
  rw [haccept [⟨0, 0, 0⟩, ⟨0, 1, 0⟩, ⟨0, 0, 1⟩] 1 1 (by decide) (by decide)]
  simp only [List.cons_append, List.nil_append]

/-- The match set of the single 9×9 reference task on the all-zero image,
with the stable sorter: all four candidate locations, reference first. -/
theorem taskLocs_zero9x9 :
    taskLocs sorterLe (fun _ _ => (0 : ℝ)) 9 9 true (Bm3dParams.from_intensity 0.5) (0, 0)
      = [(0, 0), (1, 0), (0, 1), (1, 1)] := by
  have hth : bmThreshold true (Bm3dParams.from_intensity 0.5) = 13000 := by
    rw [bmThreshold, if_pos rfl]
    norm_num [Bm3dParams.from_intensity, rclamp, max_def, min_def]
  show block_matching_joint sorterLe (fun _ => (0 : ℝ)) (fun _ => 0) (fun _ => 0)
      9 9 0 0 true (Bm3dParams.from_intensity 0.5) = _
  rw [block_matching_joint, hth, cands_eval_zero9x9]
  rw [show sorterLe [⟨0, 0, 0⟩, ⟨0, 1, 0⟩, ⟨0, 0, 1⟩, ⟨0, 1, 1⟩]
      = [⟨0, 0, 0⟩, ⟨0, 1, 0⟩, ⟨0, 0, 1⟩, ⟨0, 1, 1⟩] from by
    rw [sorterLe, List.insertionSort, List.insertionSort, List.insertionSort,
      List.insertionSort, List.insertionSort]
    rw [List.orderedInsert]
    rw [List.orderedInsert, if_pos (by norm_num)]
    rw [List.orderedInsert, if_pos (by norm_num)]
    rw [List.orderedInsert, if_pos (by norm_num)]]
  rw [show prev_power_of_two (min 16
      ([⟨(0 : ℝ), 0, 0⟩, ⟨0, 1, 0⟩, ⟨0, 0, 1⟩, ⟨0, 1, 1⟩] : List BmMatch).length) = 4 from by
    simp [prev_power_of_two, prevPow2Go_go, prevPow2Go_stop]]
  rfl

/-- The window is zero at the patch corner (0,0). -/
theorem kaiser_zero : kaiser 0 = 0 := by
  simp [kaiser]

/-- Fixed-point conversion of zero. -/
theorem toFixed_zero : toFixed 0 = 0 := by
  rw [toFixed]
  norm_num [FIXED_POINT_SCALE]

/-- Witness for C6 on the all-zero 9×9 image: the interior cell (1,1) of the
reference patch at (0,0) has a strictly positive denominator. -/
theorem C6_interior_denominator_pos_witness :
    0 < passDen sorterLe (fun _ _ => (0 : ℝ)) (fun _ _ => 0) 9 9 true
        (Bm3dParams.from_intensity 0.5) 0 ((0 + 1) * 9 + 0 + 1) :=
  C6_interior_denominator_pos sorterLe SortSpec_sorterLe (fun _ _ => 0) (fun _ _ => 0)
    9 9 true (Bm3dParams.from_intensity 0.5) 0 (0, 0) (by decide) 0 0
    (by rw [taskLocs_zero9x9]; simp) 1 1 (by decide) (by decide) (by decide) (by decide)

/-- C6 (counterexample): on the all-zero 9×9 image the pixel at index 0 is
covered by the processed patch at (0,0) (offset (0,0) of a match-set member),
yet its denominator is exactly zero, because the window weight vanishes on the
patch border. -/
theorem C6_counterexample :
    (0, 0) ∈ refPatches 9 9
    ∧ (0, 0) ∈ taskLocs sorterLe (fun _ _ => (0 : ℝ)) 9 9 true
        (Bm3dParams.from_intensity 0.5) (0, 0)
    ∧ passDen sorterLe (fun _ _ => (0 : ℝ)) (fun _ _ => 0) 9 9 true
        (Bm3dParams.from_intensity 0.5) 0 ((0 + 0) * 9 + 0 + 0) = 0 := by
  refine ⟨by decide, by rw [taskLocs_zero9x9]; simp, ?_⟩
  have hall : ∀ x ∈ ((passDenUpdates sorterLe (fun _ _ => (0 : ℝ)) (fun _ _ => 0) 9 9 true
      (Bm3dParams.from_intensity 0.5) 0).filter fun u => u.1 = 0).map Prod.snd, x = 0 := by
    intro x hx
    obtain ⟨u, hu, hux⟩ := List.mem_map.mp hx
    obtain ⟨hu1, hu2⟩ := List.mem_filter.mp hu
    have hu0 : u.1 = 0 := by simpa using hu2
    rw [passDenUpdates] at hu1
    obtain ⟨rxy, hrxy, humem⟩ := List.mem_flatMap.mp hu1
    have hrp : refPatches 9 9 = [(0, 0)] := by decide
    rw [hrp] at hrxy
    have hrxy0 : rxy = (0, 0) := by simpa using hrxy
    rw [hrxy0] at humem
    rw [denUpdates] at humem
    obtain ⟨k, hk, h2⟩ := List.mem_flatMap.mp humem
    obtain ⟨dy, hdy, h3⟩ := List.mem_flatMap.mp h2
    obtain ⟨dx, hdx, h4⟩ := List.mem_map.mp h3
    rw [taskLocs_zero9x9] at hk h4
    have hk4 : k < 4 := by simpa using List.mem_range.mp hk
    have hdy8 := List.mem_range.mp hdy
    have hdx8 := List.mem_range.mp hdx
    rw [← hux, ← h4]
    rw [← h4] at hu0
    interval_cases k
    · simp only [List.getD] at hu0 ⊢
      have hdy0 : dy = 0 := by
        simp at hu0
        omega
      have hdx0 : dx = 0 := by
        simp at hu0
        omega
      rw [hdy0, hdx0]
      simp [kaiser_zero, toFixed_zero]
    · simp at hu0
    · simp at hu0
    · simp at hu0
  show passDen sorterLe (fun _ _ => (0 : ℝ)) (fun _ _ => 0) 9 9 true
      (Bm3dParams.from_intensity 0.5) 0 0 = 0
  rw [passDen, applyUpdates_apply, show zeroAcc 0 = 0 from rfl, zero_add]
  exact List.sum_eq_zero hall

end Denoising
